import Mathlib

/-!
Verification of the exam-period scheduling core of
`src/scripts/calculate_exam_periods.py`.

Dates are embedded as proleptic-Gregorian ordinals (`Int`), following
Python's `date.toordinal` convention: ordinal 1 = 0001-01-01, which is a
Monday; `weekday o = (o + 6) % 7` with Monday = 0.  `timedelta(days=k)`
becomes `+ k`, `timedelta(weeks=k)` becomes `+ 7*k`.  Python `while` loops
that walk backwards day by day are embedded with explicit fuel; loops that
walk forward Monday by Monday over a fixed range are embedded as folds over
the list of Mondays of that range.  Fallible operations (list indexing,
`min`/`max` of a possibly-empty list, dictionary lookup) return `Option`.
-/

namespace ExamSched

/-- Weekday of an ordinal, Python convention: Monday = 0 .. Sunday = 6. -/
def weekday (o : Int) : Int := (o + 6) % 7

/-- Gregorian leap-year test. -/
def isLeapYear (y : Nat) : Bool := (y % 4 == 0 && y % 100 != 0) || y % 400 == 0

/-- Days in a month of the Gregorian calendar. -/
def daysInMonth (y m : Nat) : Nat :=
  if m == 2 then (if isLeapYear y then 29 else 28)
  else if m == 4 || m == 6 || m == 9 || m == 11 then 30
  else 31

/-- Days before January 1 of year `y` (Python `datetime._days_before_year`). -/
def daysBeforeYear (y : Nat) : Nat :=
  (y - 1) * 365 + (y - 1) / 4 - (y - 1) / 100 + (y - 1) / 400

/-- Days in year `y` before the first of month `m`. -/
def daysBeforeMonth (y m : Nat) : Nat :=
  (List.range (m - 1)).foldl (fun acc i => acc + daysInMonth y (i + 1)) 0

/-- Ordinal of the date `y-m-d` (Python `date(y, m, d).toordinal()`). -/
def toOrdinal (y m d : Nat) : Int :=
  ((daysBeforeYear y + daysBeforeMonth y m + d : Nat) : Int)

/-- Month lookup for a 0-based day-of-year `nd`; recursion over the 12 months. -/
def monthDayGo (y : Nat) : Nat → Nat → Nat → Nat × Nat
  | 0, m, nd => (m, nd + 1)
  | fuel + 1, m, nd =>
    let dim := daysInMonth y m
    if nd < dim then (m, nd + 1) else monthDayGo y fuel (m + 1) (nd - dim)

/-- Inverse of `toOrdinal` (Python `date.fromordinal`): year, month, day. -/
def ordYMD (o : Int) : Nat × Nat × Nat :=
  let n := o.toNat - 1
  let n400 := n / 146097
  let r400 := n % 146097
  let n100 := r400 / 36524
  let r100 := r400 % 36524
  let n4 := r100 / 1461
  let r4 := r100 % 1461
  let n1 := r4 / 365
  let nd := r4 % 365
  let year := n400 * 400 + n100 * 100 + n4 * 4 + n1 + 1
  if n1 == 4 || n100 == 4 then (year - 1, 12, 31)
  else
    let md := monthDayGo year 12 1 nd
    (year, md.1, md.2)

/-- Calendar year of an ordinal. -/
def ordYear (o : Int) : Nat := (ordYMD o).1

/-- Calendar month of an ordinal. -/
def ordMonth (o : Int) : Nat := (ordYMD o).2.1

/-- Day of month of an ordinal. -/
def ordDay (o : Int) : Nat := (ordYMD o).2.2

/-- Easter Sunday of year `y` as an ordinal (anonymous Gregorian computus,
the algorithm implemented by `dateutil.easter.easter` for the Western
calendar, which the script calls). -/
def easterOrdinal (y : Nat) : Int :=
  let a := y % 19
  let b := y / 100
  let c := y % 100
  let d := b / 4
  let e := b % 4
  let f := (b + 8) / 25
  let g := (b - f + 1) / 3
  let h := (19 * a + b - d - g + 15) % 30
  let i := c / 4
  let k := c % 4
  let l := (32 + 2 * e + 2 * i - h - k) % 7
  let m := (a + 11 * h + 22 * l) / 451
  let month := (h + l - 7 * m + 114) / 31
  let day := (h + l - 7 * m + 114) % 31 + 1
  toOrdinal y month day

/-- Holiday tables are date-keyed maps; embedded as association lists. -/
abbrev HolidayList := List (Int × String)

/-- Membership test `d in nh` on a holiday table. -/
def holidayMem (nh : HolidayList) (d : Int) : Bool := nh.any (·.1 == d)

/-- Name lookup `nh[d]` on a holiday table (only ever used after a
membership check in the source). -/
def holidayName (nh : HolidayList) (d : Int) : String :=
  ((nh.find? (·.1 == d)).map (·.2)).getD ""

/-- NRW public holidays of a single year, as produced by
`holidays.Germany(state='NW')` (external library; modelled from its
documented NRW holiday list, each moving feast relative to Easter). -/
def nrwYearHolidays (y : Nat) : HolidayList :=
  let e := easterOrdinal y
  [(toOrdinal y 1 1, "Neujahr"),
   (e - 2, "Karfreitag"),
   (e + 1, "Ostermontag"),
   (toOrdinal y 5 1, "Erster Mai"),
   (e + 39, "Christi Himmelfahrt"),
   (e + 50, "Pfingstmontag"),
   (e + 60, "Fronleichnam"),
   (toOrdinal y 10 3, "Tag der Deutschen Einheit"),
   (toOrdinal y 11 1, "Allerheiligen"),
   (toOrdinal y 12 25, "Erster Weihnachtstag"),
   (toOrdinal y 12 26, "Zweiter Weihnachtstag")]

/-- Source `get_nrw_holidays`: NRW holidays for `year` and `year+1`, plus
Rosenmontag (Easter − 48) and Heiligabend/Silvester when they fall on a
weekday, for both years. -/
def get_nrw_holidays (year : Nat) : HolidayList :=
  (List.range 2).foldl
    (fun acc i =>
      let y := year + i
      let e := easterOrdinal y
      let acc := acc ++ [(e - 48, "Rosenmontag")]
      let acc :=
        if weekday (toOrdinal y 12 24) < 5 then acc ++ [(toOrdinal y 12 24, "Heiligabend")] else acc
      if weekday (toOrdinal y 12 31) < 5 then acc ++ [(toOrdinal y 12 31, "Silvester")] else acc)
    (nrwYearHolidays year ++ nrwYearHolidays (year + 1))

/-- Source `get_working_days_in_week`: Monday..Friday of the week starting
at `monday`. -/
def get_working_days_in_week (monday : Int) : List Int :=
  (List.range 5).map (fun (i : Nat) => monday + (i : Int))

/-- Source `is_easter_week`: true iff `monday` is the Monday of the week
containing Easter Monday of `monday`'s year. -/
def is_easter_week (monday : Int) : Bool :=
  let easter_monday := easterOrdinal (ordYear monday) + 1
  let em_monday := easter_monday - weekday easter_monday
  monday == em_monday

/-- Number of Mondays in `[a, b]` when stepping by 7 days from `a`
(0 when `a > b`); closed form of `while current <= b: ...; current += 7`. -/
def inclWeekCount (a b : Int) : Nat := (b + 7 - a).toNat / 7

/-- The Mondays visited by `while current <= b: ...; current += 7` from `a`. -/
def weekMondays (a b : Int) : List Int :=
  (List.range (inclWeekCount a b)).map (fun (k : Nat) => a + 7 * (k : Int))

/-- Number of Mondays visited by `while current < b: ...; current += 7`. -/
def ltWeekCount (a b : Int) : Nat := (b + 6 - a).toNat / 7

/-- The Mondays visited by `while current < b: ...; current += 7` from `a`. -/
def weekMondaysLt (a b : Int) : List Int :=
  (List.range (ltWeekCount a b)).map (fun (k : Nat) => a + 7 * (k : Int))

/-- Week (by its Monday) whose Monday–Friday span contains Dec 24/25/26. -/
def isChristmasWeek (mon : Int) : Bool :=
  (get_working_days_in_week mon).any
    (fun d => ordMonth d == 12 && (ordDay d == 24 || ordDay d == 25 || ordDay d == 26))

/-- Week (by its Monday) whose Monday–Friday span contains Jan 1. -/
def isNewYearWeek (mon : Int) : Bool :=
  (get_working_days_in_week mon).any (fun d => ordMonth d == 1 && ordDay d == 1)

/-- Source `get_ws_holiday_weeks`: counts the weeks, stepping by 7 days from
`p1_mon` to `p3_mon` inclusive, whose Monday–Friday span contains
Dec 24/25/26 or Jan 1. -/
def get_ws_holiday_weeks (p1_mon p3_mon : Int) : Nat :=
  (weekMondays p1_mon p3_mon).countP (fun mon => isChristmasWeek mon || isNewYearWeek mon)

/-- Backward day-search of `get_exam_days` (the source's
`while needed > 0: ...; current -= timedelta(days=1)`).  Each fuel unit is
one day-step of the walk.  The source loop has NO step bound: it runs
until `needed` reaches 0, which always happens because only finitely many
days are blocked.  The fuel-0 stopping case is purely a model artifact
required by Lean's totality; `backfill_reach_exact` below shows that past
an input-computable fuel bound the fuel never runs out and the result no
longer depends on it, which is exactly the source loop's behavior. -/
def backfill (nh : HolidayList) (used : List Int) :
    Nat → Int → Nat → List Int → HolidayList → List Int × HolidayList
  | 0, _, _, days, hols => (days, hols)
  | fuel + 1, current, needed, days, hols =>
    if needed == 0 then (days, hols)
    else if weekday current < 5 then
      if holidayMem nh current then
        backfill nh used fuel (current - 1) needed days (hols ++ [(current, holidayName nh current)])
      else if current ∈ used then
        backfill nh used fuel (current - 1) needed days hols
      else
        backfill nh used fuel (current - 1) (needed - 1) (days ++ [current]) hols
    else
      backfill nh used fuel (current - 1) needed days hols

/-- First pass of `get_exam_days` over the week's five working days:
holidays are recorded as hits, days claimed by another block are skipped,
the rest become exam days. -/
def firstPass (nh : HolidayList) (used : List Int) (target : List Int) :
    List Int × HolidayList :=
  target.foldl
    (fun (st : List Int × HolidayList) d =>
      if holidayMem nh d then (st.1, st.2 ++ [(d, holidayName nh d)])
      else if d ∈ used then st
      else (st.1 ++ [d], st.2))
    ([], [])

/-- Source `get_exam_days`: actual exam days for the week of `monday`,
avoiding holidays and days already used by other blocks, backfilling from
earlier days when needed; the resulting days are sorted ascending. -/
def get_exam_days (fuel : Nat) (monday : Int) (nh : HolidayList) (used : List Int) :
    List Int × HolidayList :=
  let first := firstPass nh used (get_working_days_in_week monday)
  let needed := 5 - first.1.length
  let res :=
    if needed > 0 then backfill nh used fuel (monday - 1) needed first.1 first.2
    else first
  (res.1.insertionSort (· ≤ ·), res.2)

/-- Reverse-order day resolution shared by `calculate_stats` and the final
day calculation in `main`: blocks are processed last-to-first, each block's
resolved days being added to the claimed-day set seen by the next.  Returns
the per-block map (in original block order) and the union of all claimed
days. -/
def resolveAll (fuel : Nat) (p_list : List Int) (nh : HolidayList) :
    List (Int × List Int) × List Int :=
  p_list.reverse.foldl
    (fun (st : List (Int × List Int) × List Int) mon =>
      let days := (get_exam_days fuel mon nh st.2).1
      ((mon, days) :: st.1, st.2 ++ days))
    ([], [])

/-- Schedule statistics of a candidate placement. -/
structure Stats where
  lecture_weeks : Nat
  w_before : Nat
  w_after : Nat
deriving Repr, DecidableEq

/-- The `is_full_lecture_week` predicate local to `calculate_stats`: no
weekday of the week is a claimed exam day, the week is not a Christmas /
New Year week, and it overlaps the lecture period. -/
def is_full_lecture_week (all_exam_days : List Int) (l_start l_end : Int)
    (monday : Int) : Bool :=
  let week_days := get_working_days_in_week monday
  if week_days.any (fun d => all_exam_days.contains d) then false
  else if isChristmasWeek monday || isNewYearWeek monday then false
  else if !(week_days.any fun d => l_start ≤ d && d ≤ l_end) then false
  else true

/-- Python list indexing `l[i]` including negative indices; `none` models
the `IndexError` raised on an out-of-range index. -/
def pyIdx (l : List α) (i : Int) : Option α :=
  if 0 ≤ i then l.get? i.toNat
  else if i.natAbs ≤ l.length then l.get? (l.length - i.natAbs)
  else none

/-- Lookup `p_days_map[mon]`; `none` models a `KeyError`. -/
def mapLookup (m : List (Int × List Int)) (k : Int) : Option (List Int) :=
  (m.find? (·.1 == k)).map (·.2)

/-- The source's rounding of a day forward to the next Monday
(`if curr.weekday() != 0: curr += timedelta(days=(7-curr.weekday()))`). -/
def roundToMonday (d : Int) : Int :=
  if weekday d != 0 then d + (7 - weekday d) else d

/-- Monday of the week containing `d`. -/
def mondayOf (d : Int) : Int := d - weekday d

/-- Source `calculate_stats`: resolves all blocks' exam days (in reverse
block order), counts full lecture weeks over the lecture period, and the
buffer weeks `w_before` (from the day after the first block-group's last
exam day) and `w_after` (from the day after the HIP block's first exam
day).  `none` models the `IndexError`/`ValueError` Python raises on a too
short block list or an empty day list. -/
def calculate_stats (fuel : Nat) (p_list : List Int) (is_winter : Bool)
    (l_start l_end : Int) (nh : HolidayList) : Option Stats := do
  let res := resolveAll fuel p_list nh
  let p_days_map := res.1
  let all_exam_days := res.2
  let flw := is_full_lecture_week all_exam_days l_start l_end
  let lecture_w := (weekMondays (mondayOf l_start) l_end).countP flw
  let p1_end_sel := if is_winter then pyIdx p_list 1 else pyIdx p_list 0
  let p1_end_mon ← p1_end_sel
  let d1 ← mapLookup p_days_map p1_end_mon
  let p1_max_day ← d1.max?
  let p2_mon ← pyIdx p_list (-2)
  let d2 ← mapLookup p_days_map p2_mon
  let p2_min_day ← d2.min?
  let w_before :=
    (weekMondaysLt (roundToMonday (p1_max_day + 1)) (mondayOf p2_min_day)).countP flw
  let p3_mon ← pyIdx p_list (-1)
  let d3 ← mapLookup p_days_map p3_mon
  let p3_min_day ← d3.min?
  let w_after :=
    (weekMondaysLt (roundToMonday (p2_min_day + 1)) (mondayOf p3_min_day)).countP flw
  pure ⟨lecture_w, w_before, w_after⟩

/-- Source `get_violations`: advisory rule breaches derived from the
statistics (the `is_winter` argument is unused in the source as well). -/
def get_violations (stats : Stats) (p_list : List Int) (is_winter : Bool) : List String :=
  let v : List String := []
  let v := if stats.lecture_weeks < 13 then
    v ++ ["Vorlesungswochen < 13 (" ++ toString stats.lecture_weeks ++ ")"] else v
  let v := if stats.w_before < 7 then
    v ++ ["Wochen vor HIP < 7 (" ++ toString stats.w_before ++ ")"] else v
  let v := if stats.w_after < 7 then
    v ++ ["Wochen nach HIP < 7 (" ++ toString stats.w_after ++ ")"] else v
  let _ := is_winter
  if p_list.any (fun m => is_easter_week m) then v ++ ["Prüfung in Osterwoche"] else v

/-- The `w_after` quantity as the specification describes it: full lecture
weeks counted by walking Monday-by-Monday from the day after the HIP
block's LAST exam day (rounded forward to the next Monday) up to, but
excluding, the Monday of P3's first exam day.  Written from the spec's
words for comparison against `calculate_stats`. -/
def w_after_from_last (fuel : Nat) (p_list : List Int) (l_start l_end : Int)
    (nh : HolidayList) : Option Nat := do
  let res := resolveAll fuel p_list nh
  let flw := is_full_lecture_week res.2 l_start l_end
  let p2_mon ← pyIdx p_list (-2)
  let d2 ← mapLookup res.1 p2_mon
  let p2_max_day ← d2.max?
  let p3_mon ← pyIdx p_list (-1)
  let d3 ← mapLookup res.1 p3_mon
  let p3_min_day ← d3.min?
  pure ((weekMondaysLt (roundToMonday (p2_max_day + 1)) (mondayOf p3_min_day)).countP flw)

/-- The `w_after` quantity the code actually computes, written out
standalone: the walk starts from the day after the HIP block's FIRST
(earliest) exam day, rounded forward to the next Monday. -/
def w_after_from_first (fuel : Nat) (p_list : List Int) (l_start l_end : Int)
    (nh : HolidayList) : Option Nat := do
  let res := resolveAll fuel p_list nh
  let flw := is_full_lecture_week res.2 l_start l_end
  let p2_mon ← pyIdx p_list (-2)
  let d2 ← mapLookup res.1 p2_mon
  let p2_min_day ← d2.min?
  let p3_mon ← pyIdx p_list (-1)
  let d3 ← mapLookup res.1 p3_mon
  let p3_min_day ← d3.min?
  pure ((weekMondaysLt (roundToMonday (p2_min_day + 1)) (mondayOf p3_min_day)).countP flw)

/-- Score used inside `find_best_hip` (lower is better): it reads only the
two buffer statistics. -/
def hipScore (stats : Stats) : Nat :=
  (if stats.w_before != 7 then Nat.dist 7 stats.w_before * 100 else 0) +
  (if stats.w_after != 7 then Nat.dist 7 stats.w_after * 100 else 0) +
  Nat.dist stats.w_before stats.w_after

/-- Source `find_best_hip`: tries buffers 6..10 between the first exam
block and the HIP week and keeps the lowest-scoring HIP Monday.  The outer
`Option` models a Python exception inside `calculate_stats`; the inner one
is the source's `best_hip`, which stays `None` when no candidate scores
below the 9999 sentinel. -/
def find_best_hip (fuel : Nat) (l_start l_end : Int) (is_winter : Bool)
    (num_exams : Nat) (nh : HolidayList) : Option (Option Int) :=
  let p1_mon := mondayOf l_start
  let p3_mon := mondayOf l_end
  (((List.range 5).foldlM
    (fun (st : Option Int × Nat) k => do
      let buffer := 6 + k
      let hip_mon_cand := l_start + 7 * ((num_exams + buffer : Nat) : Int)
      let p1_opt := (List.range num_exams).map (fun (i : Nat) => p1_mon + 7 * (i : Int))
      let candidate := p1_opt ++ [hip_mon_cand, p3_mon]
      let stats ← calculate_stats fuel candidate is_winter l_start l_end nh
      let score := hipScore stats
      pure (if score < st.2 then (some hip_mon_cand, score) else st))
    ((none : Option Int), 9999) : Option (Option Int × Nat)).map (·.1))

/-- Candidate pairs `(p1_opt, p3_opt)` enumerated by the main loop: first
block shifted by −2..+2 weeks around the nominal first-lecture-week Monday,
crossed with the two P3 options (nominal last-lecture-week Monday and one
week later), in the source's iteration order. -/
def candPairs (p1_mon p3_mon : Int) (num_start : Nat) : List (List Int × Int) :=
  let p1_options := (List.range 5).map
    (fun s => (List.range num_start).map
      (fun (i : Nat) => p1_mon + 7 * ((s : Int) - 2) + 7 * (i : Int)))
  let p3_options := [p3_mon, p3_mon + 7]
  p1_options.foldr (fun p1 acc => p3_options.map (fun p3 => (p1, p3)) ++ acc) []

/-- The candidate block list built from a pair: `p1_opt + [p2_mon, p3_opt]`. -/
def mkCand (p2_mon : Int) (pr : List Int × Int) : List Int :=
  pr.1 ++ [p2_mon, pr.2]

/-- Score of one candidate in the main loop: 1000 for an Easter-week
block, 500 for fewer than 13 lecture weeks, 50·|7−w| for each buffer, 1000
when the first block ends more than one week before the nominal lecture
start.  `none` models a Python exception (failed stats or empty `p1_opt`). -/
def candScore (fuel : Nat) (is_ws : Bool) (l_start l_end : Int) (nh : HolidayList)
    (p1_mon p2_mon : Int) (pr : List Int × Int) : Option Nat := do
  let candidate := mkCand p2_mon pr
  let stats ← calculate_stats fuel candidate is_ws l_start l_end nh
  let s0 : Nat := if candidate.any (fun m => is_easter_week m) then 1000 else 0
  let s1 := s0 + (if stats.lecture_weeks < 13 then 500 else 0)
  let s2 := s1 + (if stats.w_before != 7 then Nat.dist 7 stats.w_before * 50 else 0)
  let s3 := s2 + (if stats.w_after != 7 then Nat.dist 7 stats.w_after * 50 else 0)
  let lastp1 ← pyIdx pr.1 (-1)
  pure (s3 + (if lastp1 < p1_mon - 7 then 1000 else 0))

/-- The source's `shift_size`:
`abs((p1_mon - p1_opt[0]).days // 7) + abs((p3_opt - p3_mon).days // 7)`. -/
def shiftSize (p1_mon p1_opt0 p3_mon p3_opt : Int) : Nat :=
  ((p1_mon - p1_opt0).fdiv 7).natAbs + ((p3_opt - p3_mon).fdiv 7).natAbs

/-- Shift of a candidate pair, with `headD` standing in for the always
in-bounds `p1_opt[0]` of a nonempty first block. -/
def pairShift (p1_mon p3_mon : Int) (pr : List Int × Int) : Nat :=
  shiftSize p1_mon (pr.1.headD 0) p3_mon pr.2

/-- One update step of the main loop's best-candidate selection: a strictly
lower score replaces the best; an equal score replaces it only when the
shift from the nominal placement is strictly smaller.  `none` models the
Python `TypeError` from `best_p_mons[0]` when an equal score arrives while
`best_p_mons` is still `None`, or an exception inside the scoring. -/
def selectStep (fuel : Nat) (is_ws : Bool) (l_start l_end : Int) (nh : HolidayList)
    (p1_mon p2_mon p3_mon : Int) (st : Option (List Int) × Nat)
    (pr : List Int × Int) : Option (Option (List Int) × Nat) := do
  let score ← candScore fuel is_ws l_start l_end nh p1_mon p2_mon pr
  let p1_opt0 ← pyIdx pr.1 0
  let shift := shiftSize p1_mon p1_opt0 p3_mon pr.2
  if score < st.2 then pure (some (mkCand p2_mon pr), score)
  else if score == st.2 then
    match st.1 with
    | none => none
    | some best => do
      let best0 ← pyIdx best 0
      let bestLast ← pyIdx best (-1)
      if shift < shiftSize p1_mon best0 p3_mon bestLast then
        pure (some (mkCand p2_mon pr), st.2)
      else pure st
  else pure st

/-- The main loop's candidate search for one semester: fold the selection
step over all candidate pairs, starting from `(None, 9999)`. -/
def main_select (fuel : Nat) (is_ws : Bool) (l_start l_end : Int) (nh : HolidayList)
    (p1_mon p2_mon p3_mon : Int) (num_start : Nat) :
    Option (Option (List Int) × Nat) :=
  (candPairs p1_mon p3_mon num_start).foldlM
    (selectStep fuel is_ws l_start l_end nh p1_mon p2_mon p3_mon)
    ((none : Option (List Int)), 9999)

section SelectLemmas

/-- The candidate enumeration always has exactly 10 entries
(5 shifts × 2 P3 options). -/
lemma candPairs_length (p1_mon p3_mon : Int) (num_start : Nat) :
    (candPairs p1_mon p3_mon num_start).length = 10 := rfl

/-- A scored candidate has a nonempty first block (the scoring accesses
`p1_opt[-1]`). -/
lemma candScore_p1_ne_nil (fuel : Nat) (is_ws : Bool) (l_start l_end : Int)
    (nh : HolidayList) (p1_mon p2_mon : Int) (pr : List Int × Int) (s : Nat)
    (h : candScore fuel is_ws l_start l_end nh p1_mon p2_mon pr = some s) :
    pr.1 ≠ [] := by
  intro hnil
  simp only [candScore, bind, Option.bind_eq_some, Option.pure_def,
    Option.some.injEq] at h
  obtain ⟨stats, _, lastp1, hlast, _⟩ := h
  have hnone : pyIdx ([] : List Int) (-1) = none := rfl
  rw [hnil, hnone] at hlast
  exact Option.noConfusion hlast

/-- `l[0]` on a cons cell. -/
lemma pyIdx_cons_zero (a : α) (t : List α) : pyIdx (a :: t) 0 = some a := by
  simp [pyIdx]

/-- `cand[0]` is the head of the first block. -/
lemma pyIdx_mkCand_zero (a : Int) (t : List Int) (x y : Int) :
    pyIdx ((a :: t) ++ [x, y]) 0 = some a := by
  simp [pyIdx]

/-- `cand[-1]` is the P3 Monday of the candidate. -/
lemma pyIdx_mkCand_last (l : List Int) (x y : Int) :
    pyIdx (l ++ [x, y]) (-1) = some y := by
  have habs : ((-1 : Int)).natAbs = 1 := rfl
  simp only [pyIdx, habs]
  rw [if_neg (by norm_num), if_pos (by simp)]
  rw [List.get?_append_right (by simp)]
  simp

/-- Evaluation of one selection step at a `some` state. -/
lemma selectStep_eval (fuel : Nat) (is_ws : Bool) (l_start l_end : Int)
    (nh : HolidayList) (p1_mon p2_mon p3_mon : Int) (prb pr : List Int × Int)
    (bs s : Nat)
    (hs : candScore fuel is_ws l_start l_end nh p1_mon p2_mon pr = some s)
    (hpr1 : pr.1 ≠ []) (hprb1 : prb.1 ≠ []) :
    selectStep fuel is_ws l_start l_end nh p1_mon p2_mon p3_mon
      (some (mkCand p2_mon prb), bs) pr =
    (if s < bs then some (some (mkCand p2_mon pr), s)
     else if s = bs then
       (if pairShift p1_mon p3_mon pr < pairShift p1_mon p3_mon prb
        then some (some (mkCand p2_mon pr), bs)
        else some (some (mkCand p2_mon prb), bs))
     else some (some (mkCand p2_mon prb), bs)) := by
  obtain ⟨prl, prv⟩ := pr
  obtain ⟨prbl, prbv⟩ := prb
  cases prl with
  | nil => exact absurd rfl hpr1
  | cons a t =>
    cases prbl with
    | nil => exact absurd rfl hprb1
    | cons b u =>
      simp only [selectStep, bind, hs, Option.some_bind, pyIdx_cons_zero,
        Option.pure_def]
      by_cases h1 : s < bs
      · rw [if_pos h1, if_pos h1]
      · rw [if_neg h1, if_neg h1]
        by_cases h2 : s = bs
        · have h2b : (s == bs) = true := beq_iff_eq.mpr h2
          rw [if_pos h2b, if_pos h2]
          simp only [mkCand, pyIdx_mkCand_zero, pyIdx_mkCand_last, Option.some_bind,
            Option.pure_def]
          simp only [pairShift, List.headD_cons]
        · have h2b : ¬ ((s == bs) = true) := by simpa using h2
          rw [if_neg h2b, if_neg h2]

/-- Evaluation of one selection step at the initial `(None, 9999)` state
when the candidate scores below the sentinel. -/
lemma selectStep_eval_none (fuel : Nat) (is_ws : Bool) (l_start l_end : Int)
    (nh : HolidayList) (p1_mon p2_mon p3_mon : Int) (pr : List Int × Int) (s : Nat)
    (hs : candScore fuel is_ws l_start l_end nh p1_mon p2_mon pr = some s)
    (hpr1 : pr.1 ≠ []) (hlt : s < 9999) :
    selectStep fuel is_ws l_start l_end nh p1_mon p2_mon p3_mon
      ((none : Option (List Int)), 9999) pr =
      some (some (mkCand p2_mon pr), s) := by
  obtain ⟨prl, prv⟩ := pr
  cases prl with
  | nil => exact absurd rfl hpr1
  | cons a t =>
    simp only [selectStep, bind, hs, Option.some_bind, pyIdx_cons_zero,
      Option.pure_def]
    rw [if_pos hlt]

/-- Invariant of the best-candidate fold: starting from a best candidate
`prb` with score `bs` minimal (and of minimal shift among that score) over
`processed`, folding the remaining candidates `L` yields a candidate of
minimal score, of minimal shift among equal scores, over `processed ++ L`. -/
lemma select_fold_min (fuel : Nat) (is_ws : Bool) (l_start l_end : Int)
    (nh : HolidayList) (p1_mon p2_mon p3_mon : Int) :
    ∀ (L processed : List (List Int × Int)) (prb : List Int × Int) (bs : Nat),
      (∀ pr ∈ L, ∃ s, candScore fuel is_ws l_start l_end nh p1_mon p2_mon pr = some s) →
      candScore fuel is_ws l_start l_end nh p1_mon p2_mon prb = some bs →
      prb ∈ processed →
      (∀ pr ∈ processed, ∀ s,
        candScore fuel is_ws l_start l_end nh p1_mon p2_mon pr = some s → bs ≤ s) →
      (∀ pr ∈ processed, ∀ s,
        candScore fuel is_ws l_start l_end nh p1_mon p2_mon pr = some s → s = bs →
        pairShift p1_mon p3_mon prb ≤ pairShift p1_mon p3_mon pr) →
      ∃ prf sf, prf ∈ processed ++ L ∧
        L.foldlM (selectStep fuel is_ws l_start l_end nh p1_mon p2_mon p3_mon)
          ((some (mkCand p2_mon prb) : Option (List Int)), bs) =
          some (some (mkCand p2_mon prf), sf) ∧
        candScore fuel is_ws l_start l_end nh p1_mon p2_mon prf = some sf ∧
        (∀ pr ∈ processed ++ L, ∀ s,
          candScore fuel is_ws l_start l_end nh p1_mon p2_mon pr = some s → sf ≤ s) ∧
        (∀ pr ∈ processed ++ L, ∀ s,
          candScore fuel is_ws l_start l_end nh p1_mon p2_mon pr = some s → s = sf →
          pairShift p1_mon p3_mon prf ≤ pairShift p1_mon p3_mon pr) := by
  intro L
  induction L with
  | nil =>
    intro processed prb bs _ hb hmem hmin htie
    exact ⟨prb, bs, by simpa using hmem, by simp [List.foldlM], hb,
      by simpa using hmin, by simpa using htie⟩
  | cons pr t ih =>
    intro processed prb bs hL hb hmem hmin htie
    obtain ⟨s, hs⟩ := hL pr (List.mem_cons_self _ _)
    have hLt : ∀ q ∈ t, ∃ sq,
        candScore fuel is_ws l_start l_end nh p1_mon p2_mon q = some sq :=
      fun q hq => hL q (List.mem_cons_of_mem _ hq)
    have hpr1 : pr.1 ≠ [] := candScore_p1_ne_nil _ _ _ _ _ _ _ _ _ hs
    have hprb1 : prb.1 ≠ [] := candScore_p1_ne_nil _ _ _ _ _ _ _ _ _ hb
    have hassoc : processed ++ pr :: t = (processed ++ [pr]) ++ t := by
      rw [List.append_assoc]
      simp
    rw [List.foldlM_cons,
      selectStep_eval fuel is_ws l_start l_end nh p1_mon p2_mon p3_mon prb pr bs s
        hs hpr1 hprb1, hassoc]
    by_cases h1 : s < bs
    · rw [if_pos h1]
      simp only [bind, Option.some_bind]
      refine ih (processed ++ [pr]) pr s hLt hs (by simp) ?_ ?_
      · intro q hq sq hsq
        rcases List.mem_append.mp hq with hq | hq
        · have := hmin q hq sq hsq
          omega
        · rcases List.mem_singleton.mp hq with rfl
          rw [hs] at hsq
          obtain rfl := Option.some.inj hsq
          exact le_refl _
      · intro q hq sq hsq hsqe
        rcases List.mem_append.mp hq with hq | hq
        · have := hmin q hq sq hsq
          omega
        · rcases List.mem_singleton.mp hq with rfl
          exact le_refl _
    · rw [if_neg h1]
      by_cases h2 : s = bs
      · rw [if_pos h2]
        by_cases h3 : pairShift p1_mon p3_mon pr < pairShift p1_mon p3_mon prb
        · rw [if_pos h3]
          simp only [bind, Option.some_bind]
          subst h2
          refine ih (processed ++ [pr]) pr s hLt hs (by simp) ?_ ?_
          · intro q hq sq hsq
            rcases List.mem_append.mp hq with hq | hq
            · exact hmin q hq sq hsq
            · rcases List.mem_singleton.mp hq with rfl
              rw [hs] at hsq
              obtain rfl := Option.some.inj hsq
              exact le_refl _
          · intro q hq sq hsq hsqe
            rcases List.mem_append.mp hq with hq | hq
            · exact le_trans (le_of_lt h3) (htie q hq sq hsq hsqe)
            · rcases List.mem_singleton.mp hq with rfl
              exact le_refl _
        · rw [if_neg h3]
          simp only [bind, Option.some_bind]
          subst h2
          refine ih (processed ++ [pr]) prb s hLt hb
            (List.mem_append_left _ hmem) ?_ ?_
          · intro q hq sq hsq
            rcases List.mem_append.mp hq with hq | hq
            · exact hmin q hq sq hsq
            · rcases List.mem_singleton.mp hq with rfl
              rw [hs] at hsq
              obtain rfl := Option.some.inj hsq
              exact le_refl _
          · intro q hq sq hsq hsqe
            rcases List.mem_append.mp hq with hq | hq
            · exact htie q hq sq hsq hsqe
            · rcases List.mem_singleton.mp hq with rfl
              exact Nat.le_of_not_lt h3
      · rw [if_neg h2]
        simp only [bind, Option.some_bind]
        refine ih (processed ++ [pr]) prb bs hLt hb
          (List.mem_append_left _ hmem) ?_ ?_
        · intro q hq sq hsq
          rcases List.mem_append.mp hq with hq | hq
          · exact hmin q hq sq hsq
          · rcases List.mem_singleton.mp hq with rfl
            rw [hs] at hsq
            obtain rfl := Option.some.inj hsq
            omega
        · intro q hq sq hsq hsqe
          rcases List.mem_append.mp hq with hq | hq
          · exact htie q hq sq hsq hsqe
          · rcases List.mem_singleton.mp hq with rfl
            rw [hs] at hsq
            obtain rfl := Option.some.inj hsq
            exact absurd hsqe h2

end SelectLemmas

/-- C3: in exhaustive local candidate generation mode, whenever every
enumerated candidate (first-block shifts −2..+2 crossed with the two P3
options around the fixed HIP Monday) scores below the 9999 sentinel, the
main loop selects a candidate of minimal score, and among candidates of
equal minimal score one of minimal total shift from the nominal unshifted
placement. -/
theorem main_select_minimal (fuel : Nat) (is_ws : Bool) (l_start l_end : Int)
    (nh : HolidayList) (p1_mon p2_mon p3_mon : Int) (num_start : Nat)
    (H : ∀ pr ∈ candPairs p1_mon p3_mon num_start,
      (candScore fuel is_ws l_start l_end nh p1_mon p2_mon pr).getD 9999 < 9999) :
    ∃ prf sf, prf ∈ candPairs p1_mon p3_mon num_start ∧
      main_select fuel is_ws l_start l_end nh p1_mon p2_mon p3_mon num_start =
        some (some (mkCand p2_mon prf), sf) ∧
      candScore fuel is_ws l_start l_end nh p1_mon p2_mon prf = some sf ∧
      (∀ pr ∈ candPairs p1_mon p3_mon num_start, ∀ s,
        candScore fuel is_ws l_start l_end nh p1_mon p2_mon pr = some s → sf ≤ s) ∧
      (∀ pr ∈ candPairs p1_mon p3_mon num_start, ∀ s,
        candScore fuel is_ws l_start l_end nh p1_mon p2_mon pr = some s → s = sf →
        pairShift p1_mon p3_mon prf ≤ pairShift p1_mon p3_mon pr) := by
  have hex : ∀ pr ∈ candPairs p1_mon p3_mon num_start,
      ∃ s, candScore fuel is_ws l_start l_end nh p1_mon p2_mon pr = some s ∧
        s < 9999 := by
    intro pr hpr
    have := H pr hpr
    cases hsc : candScore fuel is_ws l_start l_end nh p1_mon p2_mon pr with
    | none => rw [hsc] at this; simp at this
    | some s => rw [hsc] at this; exact ⟨s, rfl, by simpa using this⟩
  cases hcp : candPairs p1_mon p3_mon num_start with
  | nil =>
    exfalso
    have := candPairs_length p1_mon p3_mon num_start
    rw [hcp] at this
    simp at this
  | cons pr0 rest =>
    rw [hcp] at hex
    obtain ⟨s0, hs0, hlt0⟩ := hex pr0 (List.mem_cons_self _ _)
    have hpr01 : pr0.1 ≠ [] := candScore_p1_ne_nil _ _ _ _ _ _ _ _ _ hs0
    unfold main_select
    rw [hcp, List.foldlM_cons,
      selectStep_eval_none fuel is_ws l_start l_end nh p1_mon p2_mon p3_mon pr0 s0
        hs0 hpr01 hlt0]
    simp only [bind, Option.some_bind]
    obtain ⟨prf, sf, hfmem, hfold, hfsc, hfmin, hftie⟩ :=
      select_fold_min fuel is_ws l_start l_end nh p1_mon p2_mon p3_mon rest [pr0] pr0 s0
        (fun q hq => (hex q (List.mem_cons_of_mem _ hq)).imp fun _ h => h.1)
        hs0 (List.mem_singleton.mpr rfl)
        (by
          intro q hq sq hsq
          rcases List.mem_singleton.mp hq with rfl
          rw [hs0] at hsq
          obtain rfl := Option.some.inj hsq
          exact le_refl _)
        (by
          intro q hq sq hsq hsqe
          rcases List.mem_singleton.mp hq with rfl
          exact le_refl _)
    refine ⟨prf, sf, ?_, hfold, hfsc, ?_, ?_⟩
    · simpa using hfmem
    · intro pr hpr s hsc
      exact hfmin pr (by simpa using hpr) s hsc
    · intro pr hpr s hsc hse
      exact hftie pr (by simpa using hpr) s hsc hse

/-- Witness for C3: a concrete summer-style instance on which every
candidate scores below the sentinel; the selection picks a minimal-score,
minimal-shift candidate. -/
theorem main_select_minimal_witness :
    ∃ prf sf, prf ∈ candPairs 64 127 1 ∧
      main_select 40 false 64 131 [] 64 99 127 1 =
        some (some (mkCand 99 prf), sf) ∧
      candScore 40 false 64 131 [] 64 99 prf = some sf ∧
      (∀ pr ∈ candPairs 64 127 1, ∀ s,
        candScore 40 false 64 131 [] 64 99 pr = some s → sf ≤ s) ∧
      (∀ pr ∈ candPairs 64 127 1, ∀ s,
        candScore 40 false 64 131 [] 64 99 pr = some s → s = sf →
        pairShift 64 127 prf ≤ pairShift 64 127 pr) :=
  main_select_minimal 40 false 64 131 [] 64 99 127 1 (by decide)

/-- Semester name: the source carries strings "Sommersemester YYYY" /
"Wintersemester YYYY/YY" and extracts `(year, is_winter)` via `sem_key`
(first four-digit number, and the substring check `'Winter' in name`); the
embedding carries that pair directly. -/
structure SemName where
  year : Nat
  winter : Bool
deriving Repr, DecidableEq

/-- Source `sem_key`. -/
def sem_key (s : SemName) : Nat × Bool := (s.year, s.winter)

/-- Python tuple order on `(year, is_winter)` keys (`False < True`). -/
def keyLe (a b : Nat × Bool) : Prop :=
  a.1 < b.1 ∨ (a.1 = b.1 ∧ (a.2 = false ∨ b.2 = true))

instance : DecidableRel keyLe := fun a b => by
  unfold keyLe; infer_instance

/-- Sorting relation on semester names used for `sorted(..., key=sem_key)`. -/
def semLe (a b : SemName) : Prop := keyLe (sem_key a) (sem_key b)

instance : DecidableRel semLe := fun a b => by
  unfold semLe; infer_instance

/-- Lecture/HIP period maps: Python dicts keyed by semester name, embedded
as insertion-ordered association lists with unique keys. -/
abbrev PeriodMap := List (SemName × (Int × Int))

/-- Membership test `k in m` on a period map. -/
def hasKey (m : PeriodMap) (k : SemName) : Bool := m.any (·.1 == k)

/-- Lookup `m[k]` on a period map. -/
def alookup (m : PeriodMap) (k : SemName) : Option (Int × Int) :=
  (m.find? (·.1 == k)).map (·.2)

/-- HIP Monday computation shared (duplicated verbatim in the source) by
the gap-filling pass and the synthesis loop of `extrapolate_periods`:
semesters at or before the proposal boundary get the fixed rule
`l_start + (num_exams + 7) weeks`; later ones are optimized via
`find_best_hip`.  `none` models the `TypeError` the source raises when
`find_best_hip` returns `None` (or an exception inside it). -/
def computeHip (fuel : Nat) (sem : SemName) (l_start l_end : Int)
    (boundary : Nat × Bool) : Option Int :=
  let num_exams : Nat := if sem.winter then 2 else 1
  let nh := get_nrw_holidays (ordYear l_start)
  if keyLe (sem_key sem) boundary then
    some (l_start + 7 * ((num_exams + 7 : Nat) : Int))
  else
    match find_best_hip fuel l_start l_end sem.winter num_exams nh with
    | some (some h) => some h
    | _ => none

/-- First pass of `extrapolate_periods`: give every semester of
`lecture_periods` a HIP entry. -/
def fillHips (fuel : Nat) (boundary : Nat × Bool) (lp hp : PeriodMap) :
    Option PeriodMap :=
  lp.foldlM
    (fun hp' e =>
      if hasKey hp' e.1 then pure hp'
      else do
        let hip ← computeHip fuel e.1 e.2.1 e.2.2 boundary
        pure (hp' ++ [(e.1, (hip, hip + 4))]))
    hp

/-- Monday of ISO week 1 of year `y` (the week containing January 4). -/
def isoWeek1Monday (y : Nat) : Int :=
  let jan4 := toOrdinal y 1 4
  jan4 - weekday jan4

/-- ISO-8601 week number of an ordinal (Python `date.isocalendar()[1]`). -/
def isoWeekNum (d : Int) : Nat :=
  let y := ordYear d
  if d < isoWeek1Monday y then (d - isoWeek1Monday (y - 1)).toNat / 7 + 1
  else if isoWeek1Monday (y + 1) ≤ d then 1
  else (d - isoWeek1Monday y).toNat / 7 + 1

/-- The source's `while start.isocalendar()[1] < wk or start.weekday() != 0:
start += timedelta(days=1)` walk; fuel bounds the day-steps. -/
def isoWalk : Nat → Nat → Int → Option Int
  | 0, _, _ => none
  | fuel + 1, wk, start =>
    if isoWeekNum start < wk || weekday start != 0 then isoWalk fuel wk (start + 1)
    else some start

/-- Lecture-period synthesis for a missing semester: summer starts at the
Monday of ISO week 12 (searched from March 10) and lasts 17 weeks 4 days;
winter starts at the Monday of ISO week 39 (searched from September 20) and
lasts 19 weeks 4 days. -/
def synthLecture (fuelIso : Nat) (sem : SemName) : Option (Int × Int) :=
  if sem.winter then do
    let start ← isoWalk fuelIso 39 (toOrdinal sem.year 9 20)
    pure (start, start + (7 * 19 + 4))
  else do
    let start ← isoWalk fuelIso 12 (toOrdinal sem.year 3 10)
    pure (start, start + (7 * 17 + 4))

/-- The loop body's `if sem_name not in lecture_periods:` block: synthesize
the missing lecture period. -/
def ensureLecture (fuelIso : Nat) (sem : SemName) (lp : PeriodMap) : Option PeriodMap :=
  if hasKey lp sem then some lp
  else do
    let period ← synthLecture fuelIso sem
    pure (lp ++ [(sem, period)])

/-- The loop body's `if sem_name not in hip_periods:` block: compute the
missing HIP period from the (possibly just synthesized) lecture period. -/
def ensureHip (fuel : Nat) (boundary : Nat × Bool) (sem : SemName) (lp hp : PeriodMap) :
    Option PeriodMap :=
  if hasKey hp sem then some hp
  else do
    let period ← alookup lp sem
    let hip ← computeHip fuel sem period.1 period.2 boundary
    pure (hp ++ [(sem, (hip, hip + 4))])

/-- The loop head of the synthesis loop: on a winter state the year
advances and a summer semester name is formed; on a summer state the year
stays and a winter semester name is formed (new year, semester, winter
flag). -/
def loopNext (curr_year : Nat) (curr_winter : Bool) : Nat × SemName × Bool :=
  if curr_winter then (curr_year + 1, ⟨curr_year + 1, false⟩, false)
  else (curr_year, ⟨curr_year, true⟩, true)

/-- The forward synthesis loop of `extrapolate_periods`
(`while curr_year <= target_year`): alternates winter/summer semester
names, synthesizes missing lecture periods and missing HIP periods.  Fuel
bounds the number of loop iterations; fuel 0 with the loop still running
models an interrupted run (`none`). -/
def extrapolateLoop (fuel fuelIso : Nat) (boundary : Nat × Bool) (target : Nat) :
    Nat → Nat → Bool → PeriodMap → PeriodMap → Option (PeriodMap × PeriodMap)
  | 0, _, _, _, _ => none
  | fuelL + 1, curr_year, curr_winter, lp, hp =>
    if curr_year ≤ target then do
      let next := loopNext curr_year curr_winter
      let lp' ← ensureLecture fuelIso next.2.1 lp
      let hp' ← ensureHip fuel boundary next.2.1 lp' hp
      extrapolateLoop fuel fuelIso boundary target fuelL next.1 next.2.2 lp' hp'
    else some (lp, hp)

/-- The `last_sem = sorted(lecture_periods.keys(), key=sem_key)[-1]` step:
sort key of the last known semester, or `(now.year, False)` when no
semester is known. -/
def lastSemStart (lp : PeriodMap) (nowYear : Nat) : Nat × Bool :=
  match ((lp.map (·.1)).insertionSort semLe).getLast? with
  | none => (nowYear, false)
  | some s => (s.year, s.winter)

/-- Source `extrapolate_periods`: fill missing HIP entries for all known
semesters, then synthesize lecture and HIP periods for future semesters up
to `nowYear + num_years`, starting after the last known semester (or from
the current year when no semester is known). -/
def extrapolate_periods (fuel fuelIso fuelLoop : Nat) (lp hp : PeriodMap)
    (boundary : Nat × Bool) (num_years nowYear : Nat) :
    Option (PeriodMap × PeriodMap) := do
  let hp1 ← fillHips fuel boundary lp hp
  let start := lastSemStart lp nowYear
  let target := nowYear + num_years
  extrapolateLoop fuel fuelIso boundary target fuelLoop start.1 start.2 lp hp1

section Lemmas

/-- One step of the first pass grows the day list by at most one. -/
lemma firstPass_step_length (nh : HolidayList) (used : List Int)
    (acc : List Int × HolidayList) (d : Int) :
    (if holidayMem nh d then (acc.1, acc.2 ++ [(d, holidayName nh d)])
      else if d ∈ used then acc else (acc.1 ++ [d], acc.2)).1.length ≤ acc.1.length + 1 := by
  split
  · simp
  · split
    · simp
    · simp

/-- The first pass of `get_exam_days` yields at most one day per target day. -/
lemma firstPass_fold_length (nh : HolidayList) (used : List Int) (l : List Int) :
    ∀ acc : List Int × HolidayList,
      ((l.foldl
        (fun (st : List Int × HolidayList) d =>
          if holidayMem nh d then (st.1, st.2 ++ [(d, holidayName nh d)])
          else if d ∈ used then st else (st.1 ++ [d], st.2)) acc).1).length ≤
        acc.1.length + l.length := by
  induction l with
  | nil => intro acc; simp
  | cons a t ih =>
    intro acc
    simp only [List.foldl_cons]
    refine le_trans (ih _) ?_
    have := firstPass_step_length nh used acc a
    simp only [List.length_cons]
    omega

/-- Length bound for the first pass. -/
lemma firstPass_length (nh : HolidayList) (used : List Int) (monday : Int) :
    (firstPass nh used (get_working_days_in_week monday)).1.length ≤ 5 := by
  have h := firstPass_fold_length nh used (get_working_days_in_week monday) ([], [])
  simpa [firstPass, get_working_days_in_week] using h

/-- The backward search adds at most `needed` further days. -/
lemma backfill_length (nh : HolidayList) (used : List Int) :
    ∀ (fuel : Nat) (current : Int) (needed : Nat) (days : List Int) (hols : HolidayList),
      (backfill nh used fuel current needed days hols).1.length ≤ days.length + needed := by
  intro fuel
  induction fuel with
  | zero => intro c n d h; simp [backfill]
  | succ f ih =>
    intro c n d h
    simp only [backfill]
    split
    · simp
    next hne =>
      have hn : n ≠ 0 := by simpa using hne
      split
      · split
        · exact le_trans (ih ..) (by omega)
        · split
          · exact le_trans (ih ..) (by omega)
          · refine le_trans (ih ..) ?_
            simp only [List.length_append, List.length_cons, List.length_nil]
            omega
      · exact le_trans (ih ..) (by omega)

/-- Sorting preserves length. -/
lemma insertionSort_length (l : List Int) :
    (l.insertionSort (· ≤ ·)).length = l.length :=
  (List.perm_insertionSort _ l).length_eq

end Lemmas

/-- The resolver never yields more than five exam days, for any fuel
(helper fact; the exact count is settled by
`get_exam_days_terminates_with_five`). -/
lemma get_exam_days_len_le_five (fuel : Nat) (monday : Int) (nh : HolidayList)
    (used : List Int) : (get_exam_days fuel monday nh used).1.length ≤ 5 := by
  unfold get_exam_days
  have hfp := firstPass_length nh used monday
  simp only [insertionSort_length]
  split
  · have hb := backfill_length nh used fuel (monday - 1)
      (5 - (firstPass nh used (get_working_days_in_week monday)).1.length)
      (firstPass nh used (get_working_days_in_week monday)).1
      (firstPass nh used (get_working_days_in_week monday)).2
    omega
  · exact hfp

/-- Weekday-phase cost of the backward walk: number of initial weekend
steps possible at position `c` when walking toward earlier days (2 on a
Sunday, 1 on a Saturday, 0 on a weekday). -/
def wkPhase (c : Int) : Nat :=
  if weekday c == 6 then 2 else if weekday c == 5 then 1 else 0

/-- A lower bound below which no day is a holiday or claimed: the minimum
of all holiday dates and claimed days (and the reference date itself). -/
def blockerFloor (monday : Int) (nh : HolidayList) (used : List Int) : Int :=
  (nh.map Prod.fst ++ used).foldr min monday

/-- Fuel past which the backward walk of `get_exam_days` has provably
finished: enough steps to pass every blocked day and then collect five free
weekdays. -/
def resolveFuelBound (monday : Int) (nh : HolidayList) (used : List Int) : Nat :=
  (monday - blockerFloor monday nh used).toNat + 37

/-- Extreme holiday clustering: every working day of the block's week
(ordinals 99–103) and of the two previous weeks (92–96, 85–89) is a
holiday. -/
def clusterNH : HolidayList :=
  [(85, "h"), (86, "h"), (87, "h"), (88, "h"), (89, "h"),
   (92, "h"), (93, "h"), (94, "h"), (95, "h"), (96, "h"),
   (99, "h"), (100, "h"), (101, "h"), (102, "h"), (103, "h")]

section TerminationLemmas

/-- The weekday-phase cost is at most two. -/
lemma wkPhase_le_two (c : Int) : wkPhase c ≤ 2 := by
  unfold wkPhase
  split
  · omega
  · split
    · omega
    · omega

/-- A `foldr min` is a lower bound of the list. -/
lemma foldr_min_le_mem (init : Int) (l : List Int) :
    ∀ x ∈ l, l.foldr min init ≤ x := by
  induction l with
  | nil => intro x hx; exact absurd hx (List.not_mem_nil x)
  | cons a t ih =>
    intro x hx
    simp only [List.foldr_cons]
    rcases List.mem_cons.mp hx with rfl | hx
    · exact min_le_left _ _
    · exact le_trans (min_le_right _ _) (ih x hx)

/-- Below the blocker floor every weekday is free, so the backward walk
collects its remaining days in at most `7·needed` steps plus the weekend
phase: with that much fuel it returns exactly `needed` more days. -/
lemma backfill_below_exact (nh : HolidayList) (used : List Int) (L : Int)
    (hnh : ∀ p ∈ nh, L ≤ p.1) (hused : ∀ u ∈ used, L ≤ u) :
    ∀ (fuel : Nat) (c : Int) (n : Nat) (days : List Int) (hols : HolidayList),
      c < L → 7 * n + wkPhase c ≤ fuel →
      (backfill nh used fuel c n days hols).1.length = days.length + n := by
  intro fuel
  induction fuel with
  | zero =>
    intro c n days hols _ hf
    have hn : n = 0 := by omega
    subst hn
    simp [backfill]
  | succ f ih =>
    intro c n days hols hc hf
    simp only [backfill]
    split
    next hn0 =>
      have hn : n = 0 := by simpa using hn0
      simp [hn]
    next hn0 =>
      have hn : n ≠ 0 := by simpa using hn0
      by_cases hw : weekday c < 5
      · rw [if_pos hw]
        have hhol : ¬ (holidayMem nh c = true) := by
          intro hcon
          simp only [holidayMem, List.any_eq_true] at hcon
          obtain ⟨p, hp, hpc⟩ := hcon
          have hpc' : p.1 = c := by simpa using hpc
          have := hnh p hp
          omega
        have hu : c ∉ used := fun hcon => absurd (hused c hcon) (by omega)
        rw [if_neg hhol, if_neg hu]
        have hwk := wkPhase_le_two (c - 1)
        rw [ih (c - 1) (n - 1) (days ++ [c]) hols (by omega) (by omega)]
        simp only [List.length_append, List.length_cons, List.length_nil]
        omega
      · rw [if_neg hw]
        have hwrange : 0 ≤ weekday c ∧ weekday c < 7 := by
          unfold weekday
          exact ⟨Int.emod_nonneg _ (by norm_num), Int.emod_lt_of_pos _ (by norm_num)⟩
        have hwd : weekday c = 5 ∨ weekday c = 6 := by omega
        rcases hwd with h5 | h6
        · have h2 : weekday (c - 1) = 4 := by unfold weekday at h5 ⊢; omega
          have h1 : wkPhase c = 1 := by simp [wkPhase, h5]
          have h3 : wkPhase (c - 1) = 0 := by simp [wkPhase, h2]
          exact ih (c - 1) n days hols (by omega) (by omega)
        · have h2 : weekday (c - 1) = 5 := by unfold weekday at h6 ⊢; omega
          have h1 : wkPhase c = 2 := by simp [wkPhase, h6]
          have h3 : wkPhase (c - 1) = 1 := by simp [wkPhase, h2]
          exact ih (c - 1) n days hols (by omega) (by omega)

/-- The backward walk of `get_exam_days` always terminates with a full
collection: with fuel at least the distance down to the blocker floor plus
`7·needed + 2`, it returns exactly `needed` more days — the behavior of
the source's unbounded `while needed > 0` loop. -/
lemma backfill_reach_exact (nh : HolidayList) (used : List Int) (L : Int)
    (hnh : ∀ p ∈ nh, L ≤ p.1) (hused : ∀ u ∈ used, L ≤ u) :
    ∀ (fuel : Nat) (c : Int) (n : Nat) (days : List Int) (hols : HolidayList),
      (c + 1 - L).toNat + 7 * n + 2 ≤ fuel →
      (backfill nh used fuel c n days hols).1.length = days.length + n := by
  intro fuel
  induction fuel with
  | zero =>
    intro c n days hols hf
    exact absurd hf (by omega)
  | succ f ih =>
    intro c n days hols hf
    by_cases hcL : c < L
    · exact backfill_below_exact nh used L hnh hused (f + 1) c n days hols hcL
        (by have := wkPhase_le_two c; omega)
    · have htn : (c + 1 - L).toNat = (c - L).toNat + 1 := by omega
      simp only [backfill]
      split
      next hn0 =>
        have hn : n = 0 := by simpa using hn0
        simp [hn]
      next hn0 =>
        have hn : n ≠ 0 := by simpa using hn0
        by_cases hw : weekday c < 5
        · rw [if_pos hw]
          by_cases hh : holidayMem nh c = true
          · rw [if_pos hh]
            exact ih (c - 1) n days (hols ++ [(c, holidayName nh c)]) (by omega)
          · rw [if_neg hh]
            by_cases hu : c ∈ used
            · rw [if_pos hu]
              exact ih (c - 1) n days hols (by omega)
            · rw [if_neg hu]
              rw [ih (c - 1) (n - 1) (days ++ [c]) hols (by omega)]
              simp only [List.length_append, List.length_cons, List.length_nil]
              omega
        · rw [if_neg hw]
          exact ih (c - 1) n days hols (by omega)

end TerminationLemmas

/-- C2 counterexample: under extreme holiday clustering — the block's week
and the two previous weeks fully blocked — the resolver still returns
exactly five exam days, taken 17 to 21 days before the week's Monday: the
source's backward search has no lookback bound and never produces a
shorter `exam_days` result. -/
theorem backward_search_no_short_result_cex :
    (get_exam_days 40 99 clusterNH []).1 = [78, 79, 80, 81, 82] := by rfl

/-- C2 (amended): the Exam-Day Resolver terminates for every week Monday,
holiday set and claimed-day set: the backward walk — one day at a time
from the day before the Monday, skipping weekends, holidays and claimed
days, with NO lookback bound — always finds enough free days because only
finitely many days are blocked, and the block always gets exactly 5 exam
days (never fewer, and no error): past the computable fuel bound the
result is exactly 5 days, independent of the fuel. -/
theorem get_exam_days_terminates_with_five (monday : Int) (nh : HolidayList)
    (used : List Int) (fuel : Nat)
    (hf : resolveFuelBound monday nh used ≤ fuel) :
    (get_exam_days fuel monday nh used).1.length = 5 := by
  have hnh : ∀ p ∈ nh, blockerFloor monday nh used ≤ p.1 := by
    intro p hp
    exact foldr_min_le_mem monday _ p.1
      (List.mem_append_left _ (List.mem_map.mpr ⟨p, hp, rfl⟩))
  have hused : ∀ u ∈ used, blockerFloor monday nh used ≤ u := by
    intro u hu
    exact foldr_min_le_mem monday _ u (List.mem_append_right _ hu)
  have hfp := firstPass_length nh used monday
  have hfb : (monday - blockerFloor monday nh used).toNat + 37 ≤ fuel := hf
  simp only [get_exam_days, insertionSort_length]
  split
  next hneed =>
    rw [backfill_reach_exact nh used (blockerFloor monday nh used) hnh hused fuel
      (monday - 1)
      (5 - (firstPass nh used (get_working_days_in_week monday)).1.length)
      (firstPass nh used (get_working_days_in_week monday)).1
      (firstPass nh used (get_working_days_in_week monday)).2
      (by omega)]
    omega
  next hneed =>
    omega

/-- Witness for C2 (amended): with fuel past the bound, the clustered
input still yields exactly five days. -/
theorem get_exam_days_terminates_with_five_witness :
    (get_exam_days 60 99 clusterNH []).1.length = 5 :=
  get_exam_days_terminates_with_five 99 clusterNH [] 60 (by decide)

/-- C7: for the 2024 summer semester (lecture period Mar 18 – Jul 12,
blocks Mar 18, May 13 (HIP), Jul 8, NRW holidays 2024) `calculate_stats`
yields `w_before = 7` and `w_after = 7` (with 14 lecture weeks), and
`get_violations` on the resulting statistics is empty. -/
theorem stats_ss2024_seven_seven :
    calculate_stats 40 [toOrdinal 2024 3 18, toOrdinal 2024 5 13, toOrdinal 2024 7 8]
      false (toOrdinal 2024 3 18) (toOrdinal 2024 7 12) (get_nrw_holidays 2024) =
      some ⟨14, 7, 7⟩ ∧
    get_violations ⟨14, 7, 7⟩
      [toOrdinal 2024 3 18, toOrdinal 2024 5 13, toOrdinal 2024 7 8] false = [] := by
  constructor
  · rfl
  · rfl

/-- C8: `get_ws_holiday_weeks` steps by 7 days from `s` to `e` inclusive,
counting the weeks whose Monday–Friday span contains Dec 24/25/26 or
Jan 1 (stated as its step recurrence plus the empty-range base case), and
on Dec 16, 2024 – Jan 6, 2025 it returns 2. -/
theorem ws_holiday_weeks_spec (s e : Int) :
    (¬ s ≤ e → get_ws_holiday_weeks s e = 0) ∧
    (s ≤ e → get_ws_holiday_weeks s e =
      (if isChristmasWeek s || isNewYearWeek s then 1 else 0) +
        get_ws_holiday_weeks (s + 7) e) ∧
    get_ws_holiday_weeks (toOrdinal 2024 12 16) (toOrdinal 2025 1 6) = 2 := by
  refine ⟨?_, ?_, by rfl⟩
  · intro h
    have h6 : (e + 7 - s).toNat ≤ 6 := by omega
    have : inclWeekCount s e = 0 := by
      unfold inclWeekCount; omega
    simp [get_ws_holiday_weeks, weekMondays, this]
  · intro h
    have hcount : inclWeekCount s e = inclWeekCount (s + 7) e + 1 := by
      unfold inclWeekCount
      have h1 : (e + 7 - s).toNat = (e + 7 - (s + 7)).toNat + 7 := by omega
      rw [h1, Nat.add_div_right _ (by norm_num)]
    have hlist : weekMondays s e = s :: weekMondays (s + 7) e := by
      unfold weekMondays
      rw [hcount, List.range_succ_eq_map]
      simp only [List.map_cons, List.map_map]
      congr 1
      · simp
      · refine List.map_congr_left ?_
        intro k _
        simp [Function.comp]
        ring
    unfold get_ws_holiday_weeks
    rw [hlist, List.countP_cons]
    split <;> simp_all
    omega

/-- Witness for C8: the step recurrence applied at the concrete winter
range Dec 16, 2024 – Jan 6, 2025. -/
theorem ws_holiday_weeks_spec_witness :
    get_ws_holiday_weeks (toOrdinal 2024 12 16) (toOrdinal 2025 1 6) =
      (if isChristmasWeek (toOrdinal 2024 12 16) || isNewYearWeek (toOrdinal 2024 12 16)
        then 1 else 0) +
        get_ws_holiday_weeks (toOrdinal 2024 12 16 + 7) (toOrdinal 2025 1 6) :=
  (ws_holiday_weeks_spec (toOrdinal 2024 12 16) (toOrdinal 2025 1 6)).2.1 (by decide)

/-- C9: whenever the computed statistics have fewer than 13 lecture weeks,
`get_violations` contains a violation message naming the actual count. -/
theorem lecture_weeks_violation (stats : Stats) (p_list : List Int) (is_winter : Bool)
    (h : stats.lecture_weeks < 13) :
    ("Vorlesungswochen < 13 (" ++ toString stats.lecture_weeks ++ ")") ∈
      get_violations stats p_list is_winter := by
  unfold get_violations
  simp only [if_pos h]
  split <;> split <;> split <;> simp

/-- Witness for C9 at concrete statistics with 12 lecture weeks. -/
theorem lecture_weeks_violation_witness :
    ("Vorlesungswochen < 13 (" ++ toString (12 : Nat) ++ ")") ∈
      get_violations ⟨12, 7, 7⟩ [] false :=
  lecture_weeks_violation ⟨12, 7, 7⟩ [] false (by decide)

section DisjointLemmas

/-- Days produced by the first pass avoid holidays and claimed days. -/
lemma firstPass_fold_mem (nh : HolidayList) (used : List Int) (l : List Int) :
    ∀ (acc : List Int × HolidayList) (x : Int),
      x ∈ (l.foldl (fun (st : List Int × HolidayList) d =>
        if holidayMem nh d then (st.1, st.2 ++ [(d, holidayName nh d)])
        else if d ∈ used then st else (st.1 ++ [d], st.2)) acc).1 →
      x ∈ acc.1 ∨ (holidayMem nh x = false ∧ x ∉ used) := by
  induction l with
  | nil => intro acc x hx; exact Or.inl hx
  | cons a t ih =>
    intro acc x hx
    simp only [List.foldl_cons] at hx
    rcases ih _ x hx with h | h
    · by_cases h1 : holidayMem nh a = true
      · rw [if_pos h1] at h; exact Or.inl h
      · rw [if_neg h1] at h
        by_cases h2 : a ∈ used
        · rw [if_pos h2] at h; exact Or.inl h
        · rw [if_neg h2] at h
          simp only [List.mem_append, List.mem_singleton] at h
          rcases h with h | rfl
          · exact Or.inl h
          · simp only [Bool.not_eq_true] at h1
            exact Or.inr ⟨h1, h2⟩
    · exact Or.inr h

/-- Days produced by the backward search avoid holidays and claimed days. -/
lemma backfill_mem (nh : HolidayList) (used : List Int) :
    ∀ (fuel : Nat) (current : Int) (needed : Nat) (days : List Int)
      (hols : HolidayList) (x : Int),
      x ∈ (backfill nh used fuel current needed days hols).1 →
      x ∈ days ∨ (holidayMem nh x = false ∧ x ∉ used) := by
  intro fuel
  induction fuel with
  | zero => intro c n d h x hx; simp only [backfill] at hx; exact Or.inl hx
  | succ f ih =>
    intro c n d h x hx
    simp only [backfill] at hx
    split at hx
    · exact Or.inl hx
    · split at hx
      · split at hx
        · exact ih _ _ _ _ x hx
        · split at hx
          next h2 =>
            exact ih _ _ _ _ x hx
          next h1 h2 =>
            rcases ih _ _ _ _ x hx with hin | hin
            · simp only [List.mem_append, List.mem_singleton] at hin
              rcases hin with hin | rfl
              · exact Or.inl hin
              · simp only [Bool.not_eq_true] at h1
                exact Or.inr ⟨h1, h2⟩
            · exact Or.inr hin
      · exact ih _ _ _ _ x hx

/-- Every resolved exam day avoids the holiday table and the claimed-day
set the resolver was given. -/
lemma get_exam_days_mem (fuel : Nat) (monday : Int) (nh : HolidayList)
    (used : List Int) (x : Int)
    (hx : x ∈ (get_exam_days fuel monday nh used).1) :
    holidayMem nh x = false ∧ x ∉ used := by
  simp only [get_exam_days] at hx
  rw [(List.perm_insertionSort _ _).mem_iff] at hx
  split at hx
  · rcases backfill_mem nh used fuel _ _ _ _ x hx with h | h
    · rcases firstPass_fold_mem nh used _ _ x h with h' | h'
      · exact absurd h' (List.not_mem_nil x)
      · exact h'
    · exact h
  · rcases firstPass_fold_mem nh used _ _ x hx with h' | h'
    · exact absurd h' (List.not_mem_nil x)
    · exact h'

/-- Invariant of the reverse-order resolution fold: all stored day lists
are inside the claimed-day set, avoid the holiday table, and are pairwise
disjoint. -/
lemma resolveAll_fold_inv (fuel : Nat) (nh : HolidayList) (l : List Int) :
    ∀ (st : List (Int × List Int) × List Int),
      (∀ pr ∈ st.1, ∀ d ∈ pr.2, d ∈ st.2) →
      (∀ pr ∈ st.1, ∀ d ∈ pr.2, holidayMem nh d = false) →
      st.1.Pairwise (fun a b => ∀ d ∈ a.2, d ∉ b.2) →
      ((l.foldl (fun (st : List (Int × List Int) × List Int) m =>
          let days := (get_exam_days fuel m nh st.2).1
          ((m, days) :: st.1, st.2 ++ days)) st).1.Pairwise
            (fun a b => ∀ d ∈ a.2, d ∉ b.2) ∧
        ∀ pr ∈ (l.foldl (fun (st : List (Int × List Int) × List Int) m =>
          let days := (get_exam_days fuel m nh st.2).1
          ((m, days) :: st.1, st.2 ++ days)) st).1,
          ∀ d ∈ pr.2, holidayMem nh d = false) := by
  induction l with
  | nil => intro st h1 h2 h3; exact ⟨h3, h2⟩
  | cons a t ih =>
    intro st h1 h2 h3
    simp only [List.foldl_cons]
    apply ih
    · intro pr hpr d hd
      rcases List.mem_cons.mp hpr with rfl | hpr
      · simp only at hd
        exact List.mem_append_right _ hd
      · exact List.mem_append_left _ (h1 pr hpr d hd)
    · intro pr hpr d hd
      rcases List.mem_cons.mp hpr with rfl | hpr
      · exact (get_exam_days_mem fuel a nh st.2 d hd).1
      · exact h2 pr hpr d hd
    · refine List.Pairwise.cons ?_ h3
      intro y hy d hd
      have hav := (get_exam_days_mem fuel a nh st.2 d hd).2
      intro hdy
      exact hav (h1 y hy d hdy)

end DisjointLemmas

/-- C1: resolving the blocks of a schedule last-to-first, each block's
resolved exam days joining the claimed-day set seen by the next (as
`calculate_stats` and the main loop do), the per-block exam-day lists are
pairwise disjoint and no resolved exam day is a date of the holiday
table. -/
theorem resolved_blocks_disjoint_holiday_free (fuel : Nat) (p_list : List Int)
    (nh : HolidayList) :
    ((resolveAll fuel p_list nh).1.Pairwise fun a b => ∀ d ∈ a.2, d ∉ b.2) ∧
    ∀ pr ∈ (resolveAll fuel p_list nh).1, ∀ d ∈ pr.2, holidayMem nh d = false := by
  have h := resolveAll_fold_inv fuel nh p_list.reverse ([], [])
    (by intro pr hpr; exact absurd hpr (List.not_mem_nil pr))
    (by intro pr hpr; exact absurd hpr (List.not_mem_nil pr))
    List.Pairwise.nil
  exact h

/-- C4 counterexample: the scoring used inside `find_best_hip` applies no
penalty for a lecture-week count below 13 (nor any Easter term): statistics
with 0 lecture weeks and perfect buffers score 0, exactly like statistics
with 20 lecture weeks. -/
theorem hipScore_no_lecture_penalty_cex :
    hipScore ⟨0, 7, 7⟩ = 0 ∧ hipScore ⟨20, 7, 7⟩ = 0 := by decide

/-- C4 (amended): only the main loop's scoring applies the heavy fixed
penalties — 1000 for an Easter-week block and 500 for fewer than 13
lecture weeks — on top of terms `50·|7−w_before|` and `50·|7−w_after|`;
the `find_best_hip` scoring depends only on `w_before` and `w_after`
(terms `100·|7−w|` plus `|w_before−w_after|`), with no Easter or
lecture-week penalty. -/
theorem scoring_mode_penalties :
    (∀ st st' : Stats, st.w_before = st'.w_before → st.w_after = st'.w_after →
      hipScore st = hipScore st') ∧
    (∀ (fuel : Nat) (is_ws : Bool) (l_start l_end : Int) (nh : HolidayList)
        (p1_mon p2_mon : Int) (pr : List Int × Int) (s : Nat) (stats : Stats),
      candScore fuel is_ws l_start l_end nh p1_mon p2_mon pr = some s →
      calculate_stats fuel (mkCand p2_mon pr) is_ws l_start l_end nh = some stats →
      ((mkCand p2_mon pr).any (fun m => is_easter_week m) = true → 1000 ≤ s) ∧
      (stats.lecture_weeks < 13 → 500 ≤ s) ∧
      (stats.w_before ≠ 7 → 50 * Nat.dist 7 stats.w_before ≤ s) ∧
      (stats.w_after ≠ 7 → 50 * Nat.dist 7 stats.w_after ≤ s)) := by
  constructor
  · intro st st' h1 h2
    simp [hipScore, h1, h2]
  · intro fuel is_ws l_start l_end nh p1_mon p2_mon pr s stats hs hstats
    simp only [candScore, bind, Option.bind_eq_some, Option.pure_def,
      Option.some.injEq] at hs
    obtain ⟨stats', hstats', lastp1, hlast, hsum⟩ := hs
    rw [hstats] at hstats'
    obtain rfl : stats = stats' := Option.some.inj hstats'
    subst hsum
    refine ⟨fun h => ?_, fun h => ?_, fun h => ?_, fun h => ?_⟩
    · rw [if_pos h]; omega
    · rw [if_pos h]; omega
    · rw [if_pos (bne_iff_ne.mpr h)]; omega
    · rw [if_pos (bne_iff_ne.mpr h)]; omega

/-- Witness for C4 (amended): both parts applied at concrete inputs — the
buffer-only nature of the HIP score, and the 500-point penalty for a
7-lecture-week candidate of the main scoring. -/
theorem scoring_mode_penalties_witness :
    hipScore ⟨3, 5, 9⟩ = hipScore ⟨17, 5, 9⟩ ∧ (500 : Nat) ≤ 850 :=
  ⟨scoring_mode_penalties.1 ⟨3, 5, 9⟩ ⟨17, 5, 9⟩ rfl rfl,
   (scoring_mode_penalties.2 40 false 64 131 [] (mondayOf 64) 99 ([64], 127) 850
     ⟨7, 4, 3⟩ (by rfl) (by rfl)).2.1 (by decide)⟩

section DomainLemmas

/-- Every block Monday appears as a key of the fold underlying
`resolveAll`. -/
lemma resolveAll_fold_keys (fuel : Nat) (nh : HolidayList) :
    ∀ (l : List Int) (st : List (Int × List Int) × List Int) (mon : Int),
      (mon ∈ l ∨ ∃ pr ∈ st.1, pr.1 = mon) →
      ∃ pr ∈ (l.foldl
        (fun (st : List (Int × List Int) × List Int) m =>
          let days := (get_exam_days fuel m nh st.2).1
          ((m, days) :: st.1, st.2 ++ days)) st).1, pr.1 = mon := by
  intro l
  induction l with
  | nil =>
    intro st mon h
    rcases h with h | h
    · exact absurd h (List.not_mem_nil mon)
    · exact h
  | cons a t ih =>
    intro st mon h
    simp only [List.foldl_cons]
    apply ih
    rcases h with h | ⟨pr, hpr, hk⟩
    · rcases List.mem_cons.mp h with rfl | h
      · exact Or.inr ⟨(mon, (get_exam_days fuel mon nh st.2).1), by simp⟩
      · exact Or.inl h
    · exact Or.inr ⟨pr, List.mem_cons_of_mem _ hpr, hk⟩

/-- Every block Monday of `p_list` has an entry in the resolved map. -/
lemma resolveAll_key_mem (fuel : Nat) (p_list : List Int) (nh : HolidayList)
    (mon : Int) (h : mon ∈ p_list) :
    ∃ pr ∈ (resolveAll fuel p_list nh).1, pr.1 = mon := by
  unfold resolveAll
  exact resolveAll_fold_keys fuel nh p_list.reverse ([], []) mon
    (Or.inl (List.mem_reverse.mpr h))

/-- A successful map lookup returns the day list of an entry of the map. -/
lemma mapLookup_some_of_key (m : List (Int × List Int)) (k : Int)
    (h : ∃ pr ∈ m, pr.1 = k) :
    ∃ d, mapLookup m k = some d ∧ (k, d) ∈ m := by
  obtain ⟨pr, hpr, hk⟩ := h
  have hsome : (m.find? (·.1 == k)).isSome := by
    rw [List.find?_isSome]
    exact ⟨pr, hpr, by simp [hk]⟩
  obtain ⟨e, he⟩ := Option.isSome_iff_exists.mp hsome
  refine ⟨e.2, ?_, ?_⟩
  · simp [mapLookup, he]
  · have hmem := List.mem_of_find?_eq_some he
    have hkey := List.find?_some he
    have : e.1 = k := by simpa using hkey
    rw [← this]
    exact hmem

/-- A nonempty list has a maximum. -/
lemma max?_isSome_of_ne_nil (l : List Int) (h : l ≠ []) : l.max?.isSome := by
  cases l with
  | nil => exact absurd rfl h
  | cons a t => simp [List.max?]

/-- A nonempty list has a minimum. -/
lemma min?_isSome_of_ne_nil (l : List Int) (h : l ≠ []) : l.min?.isSome := by
  cases l with
  | nil => exact absurd rfl h
  | cons a t => simp [List.min?]

/-- Python `l[-2]` succeeds exactly on lists with at least two elements. -/
lemma pyIdx_neg_two_isSome (l : List α) (h : 2 ≤ l.length) :
    (pyIdx l (-2)).isSome := by
  have habs : ((-2 : Int).natAbs) = 2 := rfl
  simp only [pyIdx, habs]
  rw [if_neg (by norm_num), if_pos h]
  rw [Option.isSome_iff_ne_none]
  simp only [ne_eq, List.get?_eq_none]
  omega

/-- Python `l[-1]` succeeds exactly on nonempty lists. -/
lemma pyIdx_neg_one_isSome (l : List α) (h : 1 ≤ l.length) :
    (pyIdx l (-1)).isSome := by
  have habs : ((-1 : Int).natAbs) = 1 := rfl
  simp only [pyIdx, habs]
  rw [if_neg (by norm_num), if_pos h]
  rw [Option.isSome_iff_ne_none]
  simp only [ne_eq, List.get?_eq_none]
  omega

/-- A successful `pyIdx` returns an element of the list. -/
lemma pyIdx_mem (l : List α) (i : Int) (a : α) (h : pyIdx l i = some a) : a ∈ l := by
  unfold pyIdx at h
  split at h
  · exact List.get?_mem h
  · split at h
    · exact List.get?_mem h
    · exact absurd h (by simp)

end DomainLemmas

/-- C10 counterexample: `calculate_stats` is total on a 2-element block
list — a block list with fewer than 3 entries need not index out of
bounds. -/
theorem calculate_stats_two_blocks_cex :
    calculate_stats 40 [64, 127] false 64 131 [] = some ⟨8, 0, 8⟩ := by rfl

/-- C10 (amended): `calculate_stats` is total whenever the block list has
at least 2 entries and every resolved day list is nonempty; with at most 1
entry the buffer computation indexes out of bounds (Python raises). -/
theorem calculate_stats_domain (fuel : Nat) (p_list : List Int) (is_winter : Bool)
    (l_start l_end : Int) (nh : HolidayList) :
    (2 ≤ p_list.length →
      (∀ pr ∈ (resolveAll fuel p_list nh).1, pr.2 ≠ []) →
      (calculate_stats fuel p_list is_winter l_start l_end nh).isSome) ∧
    (p_list.length ≤ 1 →
      calculate_stats fuel p_list is_winter l_start l_end nh = none) := by
  constructor
  · intro hlen hne
    -- the first-block access
    have hp1 : ∃ m1, (if is_winter then pyIdx p_list 1 else pyIdx p_list 0) = some m1 ∧
        m1 ∈ p_list := by
      cases is_winter with
      | false =>
        have h0 : (pyIdx p_list 0).isSome := by
          simp only [pyIdx, le_refl, if_pos, Int.toNat_zero]
          rw [Option.isSome_iff_ne_none]
          simp only [ne_eq, List.get?_eq_none]
          omega
        obtain ⟨m1, hm1⟩ := Option.isSome_iff_exists.mp h0
        exact ⟨m1, by simpa using hm1, pyIdx_mem _ _ _ hm1⟩
      | true =>
        have h0 : (pyIdx p_list 1).isSome := by
          simp only [pyIdx]
          rw [if_pos (by norm_num)]
          rw [Option.isSome_iff_ne_none]
          simp only [ne_eq, List.get?_eq_none]
          omega
        obtain ⟨m1, hm1⟩ := Option.isSome_iff_exists.mp h0
        exact ⟨m1, by simpa using hm1, pyIdx_mem _ _ _ hm1⟩
    obtain ⟨m1, hm1, hm1mem⟩ := hp1
    obtain ⟨d1, hd1, hd1mem⟩ := mapLookup_some_of_key _ m1
      (resolveAll_key_mem fuel p_list nh m1 hm1mem)
    obtain ⟨x1, hx1⟩ := Option.isSome_iff_exists.mp
      (max?_isSome_of_ne_nil d1 (hne _ hd1mem))
    obtain ⟨m2, hm2⟩ := Option.isSome_iff_exists.mp (pyIdx_neg_two_isSome p_list hlen)
    obtain ⟨d2, hd2, hd2mem⟩ := mapLookup_some_of_key _ m2
      (resolveAll_key_mem fuel p_list nh m2 (pyIdx_mem _ _ _ hm2))
    obtain ⟨x2, hx2⟩ := Option.isSome_iff_exists.mp
      (min?_isSome_of_ne_nil d2 (hne _ hd2mem))
    obtain ⟨m3, hm3⟩ := Option.isSome_iff_exists.mp
      (pyIdx_neg_one_isSome p_list (by omega))
    obtain ⟨d3, hd3, hd3mem⟩ := mapLookup_some_of_key _ m3
      (resolveAll_key_mem fuel p_list nh m3 (pyIdx_mem _ _ _ hm3))
    obtain ⟨x3, hx3⟩ := Option.isSome_iff_exists.mp
      (min?_isSome_of_ne_nil d3 (hne _ hd3mem))
    cases is_winter with
    | false =>
      simp only [Bool.false_eq_true, if_false] at hm1
      simp [calculate_stats, hm1, hd1, hx1, hm2, hd2, hx2, hm3, hd3, hx3]
    | true =>
      simp only [if_true] at hm1
      simp [calculate_stats, hm1, hd1, hx1, hm2, hd2, hx2, hm3, hd3, hx3]
  · intro hlen
    rcases p_list with _ | ⟨a, _ | ⟨b, t⟩⟩
    · cases is_winter <;> simp [calculate_stats, pyIdx]
    · cases is_winter with
      | true => simp [calculate_stats, pyIdx]
      | false =>
        cases hdays : (get_exam_days fuel a nh []).1 with
        | nil => simp [calculate_stats, resolveAll, mapLookup, hdays, pyIdx, List.max?]
        | cons x xs => simp [calculate_stats, resolveAll, mapLookup, hdays, pyIdx, List.max?]
    · exfalso
      simp only [List.length_cons] at hlen
      omega

/-- Witness for C10 (amended): a winter block pair is total, a singleton
block list fails. -/
theorem calculate_stats_domain_witness :
    (calculate_stats 40 [8, 29] true 8 40 []).isSome ∧
    calculate_stats 40 [8] true 8 40 [] = none :=
  ⟨(calculate_stats_domain 40 [8, 29] true 8 40 []).1 (by decide) (by decide),
   (calculate_stats_domain 40 [8] true 8 40 []).2 (by decide)⟩

/-- Concrete holiday table for the C5 counterexample: Tuesday–Friday of
the HIP week (ordinals 100–103) and the whole previous week (92–96) are
holidays, so the HIP block's resolved days spill into week 85. -/
def cexNH : HolidayList :=
  [(92, "h"), (93, "h"), (94, "h"), (95, "h"), (96, "h"),
   (100, "h"), (101, "h"), (102, "h"), (103, "h")]

/-- C5 counterexample: on a schedule whose HIP block spills into an
earlier week, `calculate_stats` yields `w_after = 4`, while the walk the
claim describes — starting after the HIP block's LAST exam day — yields 3;
the code starts at the HIP block's first exam day instead. -/
theorem w_after_from_last_cex :
    calculate_stats 40 [64, 99, 127] false 64 131 cexNH = some ⟨6, 2, 4⟩ ∧
    w_after_from_last 40 [64, 99, 127] 64 131 cexNH = some 3 := by
  constructor
  · rfl
  · rfl

/-- C5 (amended): for every successful run of `calculate_stats`, `w_after`
equals the count of full lecture weeks obtained by walking
Monday-by-Monday from the day after the HIP block's FIRST exam day
(rounded forward to the next Monday) up to, but excluding, the Monday of
P3's first exam day. -/
theorem w_after_eq_from_first (fuel : Nat) (p_list : List Int) (is_winter : Bool)
    (l_start l_end : Int) (nh : HolidayList) (st : Stats)
    (h : calculate_stats fuel p_list is_winter l_start l_end nh = some st) :
    w_after_from_first fuel p_list l_start l_end nh = some st.w_after := by
  simp only [calculate_stats, bind, Option.bind_eq_some, Option.pure_def,
    Option.some.injEq] at h
  obtain ⟨m1, hm1, d1, hd1, x1, hx1, m2, hm2, d2, hd2, x2, hx2, m3, hm3, d3, hd3,
    x3, hx3, hfin⟩ := h
  simp only [w_after_from_first, bind, hm2, Option.some_bind, hd2, hx2, hm3, hd3, hx3,
    Option.pure_def, Option.some.injEq]
  rw [← hfin]

/-- Witness for C5 (amended) at the 2024 summer-semester schedule. -/
theorem w_after_eq_from_first_witness :
    w_after_from_first 40 [toOrdinal 2024 3 18, toOrdinal 2024 5 13, toOrdinal 2024 7 8]
      (toOrdinal 2024 3 18) (toOrdinal 2024 7 12) (get_nrw_holidays 2024) = some 7 :=
  w_after_eq_from_first 40 _ false _ _ _ ⟨14, 7, 7⟩ (by rfl)

section ExtrapolateLemmas

/-- The semester ordering is total. -/
instance : IsTotal SemName semLe where
  total a b := by
    unfold semLe keyLe sem_key
    simp only
    rcases Nat.lt_trichotomy a.year b.year with h | h | h
    · exact Or.inl (Or.inl h)
    · cases ha : a.winter <;> cases hb : b.winter
      · exact Or.inl (Or.inr ⟨h, Or.inl rfl⟩)
      · exact Or.inl (Or.inr ⟨h, Or.inl rfl⟩)
      · exact Or.inr (Or.inr ⟨h.symm, Or.inl rfl⟩)
      · exact Or.inl (Or.inr ⟨h, Or.inr rfl⟩)
    · exact Or.inr (Or.inl h)

/-- The semester ordering is transitive. -/
instance : IsTrans SemName semLe where
  trans a b c hab hbc := by
    unfold semLe keyLe sem_key at *
    simp only at hab hbc ⊢
    rcases hab with h1 | ⟨h1, h1'⟩ <;> rcases hbc with h2 | ⟨h2, h2'⟩
    · exact Or.inl (lt_trans h1 h2)
    · exact Or.inl (h2 ▸ h1)
    · exact Or.inl (h1 ▸ h2)
    · refine Or.inr ⟨h1.trans h2, ?_⟩
      rcases h1' with h | h
      · exact Or.inl h
      · rcases h2' with h' | h'
        · rw [h] at h'
          exact absurd h' (by simp)
        · exact Or.inr h'

/-- The semester ordering is reflexive. -/
lemma semLe_refl (a : SemName) : semLe a a := by
  unfold semLe keyLe sem_key
  cases h : a.winter
  · exact Or.inr ⟨rfl, Or.inl rfl⟩
  · exact Or.inr ⟨rfl, Or.inr rfl⟩

/-- A semester at most another in the ordering has at most its year. -/
lemma semLe_year (a b : SemName) (h : semLe a b) : a.year ≤ b.year := by
  unfold semLe keyLe sem_key at h
  simp only at h
  rcases h with h | ⟨h, _⟩
  · exact le_of_lt h
  · exact le_of_eq h

/-- Key membership distributes over append. -/
lemma hasKey_append (m1 m2 : PeriodMap) (k : SemName) :
    hasKey (m1 ++ m2) k = (hasKey m1 k || hasKey m2 k) := by
  simp [hasKey, List.any_append]

/-- Key membership as membership of the key list. -/
lemma hasKey_iff_mem_map (m : PeriodMap) (k : SemName) :
    hasKey m k = true ↔ k ∈ m.map (·.1) := by
  simp only [hasKey, List.any_eq_true, List.mem_map]
  constructor
  · rintro ⟨e, he, hk⟩
    exact ⟨e, he, by simpa using hk⟩
  · rintro ⟨e, he, hk⟩
    exact ⟨e, he, by simp [hk]⟩

/-- In a pairwise-related list, every element relates to the last (or is
the last). -/
lemma pairwise_rel_getLast {α : Type} {r : α → α → Prop} :
    ∀ (l : List α), l.Pairwise r → ∀ (m : α), l.getLast? = some m →
      ∀ x ∈ l, r x m ∨ x = m := by
  intro l
  induction l with
  | nil => intro _ m hm; simp at hm
  | cons a t ih =>
    intro hp m hm x hx
    cases t with
    | nil =>
      simp only [List.getLast?_singleton, Option.some.injEq] at hm
      subst hm
      rcases List.mem_singleton.mp hx with rfl
      exact Or.inr rfl
    | cons b u =>
      rw [List.getLast?_cons_cons] at hm
      rcases List.mem_cons.mp hx with rfl | hx
      · have hmmem : m ∈ b :: u := by
          obtain ⟨hne, heq⟩ := List.mem_getLast?_eq_getLast (Option.mem_def.mpr hm)
          rw [heq]
          exact List.getLast_mem hne
        exact Or.inl ((List.pairwise_cons.mp hp).1 m hmmem)
      · exact ih (List.pairwise_cons.mp hp).2 m hm x hx

/-- The last element of the sorted key list dominates every key. -/
lemma sorted_getLast_max (l : List SemName) (m : SemName)
    (hm : (l.insertionSort semLe).getLast? = some m) :
    ∀ x ∈ l, semLe x m := by
  intro x hx
  have hx' : x ∈ l.insertionSort semLe := (List.perm_insertionSort semLe l).mem_iff.mpr hx
  rcases pairwise_rel_getLast _ (List.sorted_insertionSort semLe l) m hm x hx' with h | rfl
  · exact h
  · exact semLe_refl x

/-- Reduction of the loop head on a summer state. -/
lemma loopNext_false (y : Nat) : loopNext y false = (y, ⟨y, true⟩, true) := rfl

/-- Reduction of the loop head on a winter state. -/
lemma loopNext_true (y : Nat) : loopNext y true = (y + 1, ⟨y + 1, false⟩, false) := rfl

/-- `ensureLecture` only appends, and guarantees its semester's key. -/
lemma ensureLecture_post (fuelIso : Nat) (sem : SemName) (lp lp2 : PeriodMap)
    (h : ensureLecture fuelIso sem lp = some lp2) :
    (∀ k, hasKey lp k = true → hasKey lp2 k = true) ∧
    hasKey lp2 sem = true ∧
    (∀ k, hasKey lp2 k = true → hasKey lp k = true ∨ k = sem) := by
  unfold ensureLecture at h
  split at h
  next hk =>
    obtain rfl := Option.some.inj h
    exact ⟨fun k hk' => hk', hk, fun k hk' => Or.inl hk'⟩
  next hk =>
    simp only [bind, Option.bind_eq_some, Option.pure_def, Option.some.injEq] at h
    obtain ⟨period, hper, rfl⟩ := h
    refine ⟨?_, ?_, ?_⟩
    · intro k hk'
      rw [hasKey_append]
      simp [hk']
    · rw [hasKey_append]
      simp [hasKey]
    · intro k hk'
      rw [hasKey_append] at hk'
      simp only [Bool.or_eq_true] at hk'
      rcases hk' with hk' | hk'
      · exact Or.inl hk'
      · right
        simp only [hasKey, List.any_cons, List.any_nil, Bool.or_false] at hk'
        exact (by simpa using hk' : sem = k).symm

/-- `ensureHip` only appends, and guarantees its semester's key. -/
lemma ensureHip_post (fuel : Nat) (b : Nat × Bool) (sem : SemName) (lp hp hp2 : PeriodMap)
    (h : ensureHip fuel b sem lp hp = some hp2) :
    (∀ k, hasKey hp k = true → hasKey hp2 k = true) ∧ hasKey hp2 sem = true := by
  unfold ensureHip at h
  split at h
  next hk =>
    obtain rfl := Option.some.inj h
    exact ⟨fun k hk' => hk', hk⟩
  next hk =>
    simp only [bind, Option.bind_eq_some, Option.pure_def, Option.some.injEq] at h
    obtain ⟨period, hper, hip, hhip, rfl⟩ := h
    constructor
    · intro k hk'
      rw [hasKey_append]
      simp [hk']
    · rw [hasKey_append]
      simp [hasKey]

/-- The gap-filling pass only appends HIP entries and afterwards every
known semester has one. -/
lemma fillHips_post (fuel : Nat) (b : Nat × Bool) :
    ∀ (lp hp hp1 : PeriodMap),
      fillHips fuel b lp hp = some hp1 →
      (∀ k, hasKey hp k = true → hasKey hp1 k = true) ∧
      (∀ e ∈ lp, hasKey hp1 e.1 = true) := by
  intro lp
  induction lp with
  | nil =>
    intro hp hp1 h
    obtain rfl : hp = hp1 := Option.some.inj h
    exact ⟨fun k hk => hk, by simp⟩
  | cons e t ih =>
    intro hp hp1 h
    simp only [fillHips, List.foldlM_cons] at h
    split at h
    next hk =>
      simp only [bind, Option.pure_def, Option.some_bind] at h
      obtain ⟨hmono, hcov⟩ := ih hp hp1 h
      refine ⟨hmono, ?_⟩
      intro e' he'
      rcases List.mem_cons.mp he' with rfl | he'
      · exact hmono _ hk
      · exact hcov e' he'
    next hk =>
      simp only [bind, Option.bind_eq_some, Option.pure_def, Option.some_bind] at h
      obtain ⟨hp2, ⟨hip, hhip, heq⟩, h⟩ := h
      obtain rfl := Option.some.inj heq
      obtain ⟨hmono, hcov⟩ := ih (hp ++ [(e.1, (hip, hip + 4))]) hp1 h
      refine ⟨?_, ?_⟩
      · intro k hk'
        apply hmono
        rw [hasKey_append]
        simp [hk']
      · intro e' he'
        rcases List.mem_cons.mp he' with rfl | he'
        · apply hmono
          rw [hasKey_append]
          simp [hasKey]
        · exact hcov e' he'

/-- The gap-filling pass does nothing when every known semester already has
a HIP entry. -/
lemma fillHips_noop (fuel : Nat) (b : Nat × Bool) :
    ∀ (lp hp : PeriodMap),
      (∀ e ∈ lp, hasKey hp e.1 = true) → fillHips fuel b lp hp = some hp := by
  intro lp
  induction lp with
  | nil => intro hp _; rfl
  | cons e t ih =>
    intro hp hcov
    simp only [fillHips, List.foldlM_cons]
    rw [if_pos (hcov e (List.mem_cons_self _ _))]
    simp only [bind, Option.pure_def, Option.some_bind]
    exact ih hp (fun e' he' => hcov e' (List.mem_cons_of_mem _ he'))

/-- The synthesis loop returns its state unchanged when the year is past
the target. -/
lemma extrapolateLoop_exit (fuel fuelIso : Nat) (b : Nat × Bool)
    (target fuelL y : Nat) (w : Bool) (lp hp lp' hp' : PeriodMap)
    (h : extrapolateLoop fuel fuelIso b target fuelL y w lp hp = some (lp', hp'))
    (hyt : ¬ y ≤ target) : lp' = lp ∧ hp' = hp := by
  cases fuelL with
  | zero => simp [extrapolateLoop] at h
  | succ k =>
    simp only [extrapolateLoop, if_neg hyt, Option.some.injEq, Prod.mk.injEq] at h
    exact ⟨h.1.symm, h.2.symm⟩

/-- The synthesis loop (with any positive fuel) immediately returns its
state when the year is past the target. -/
lemma extrapolateLoop_noop (fuel fuelIso : Nat) (b : Nat × Bool)
    (target fuelL y : Nat) (w : Bool) (lp hp : PeriodMap)
    (hyt : ¬ y ≤ target) (hf : 1 ≤ fuelL) :
    extrapolateLoop fuel fuelIso b target fuelL y w lp hp = some (lp, hp) := by
  cases fuelL with
  | zero => omega
  | succ k => simp [extrapolateLoop, if_neg hyt]

/-- Postconditions of a completed synthesis loop: keys only grow, HIP
coverage of the lecture map is preserved, and (when the loop was entered)
the summer semester of the year after the target is a key of the final
lecture map. -/
lemma extrapolateLoop_post (fuel fuelIso : Nat) (b : Nat × Bool) (target : Nat) :
    ∀ (fuelL y : Nat) (w : Bool) (lp hp lp' hp' : PeriodMap),
      extrapolateLoop fuel fuelIso b target fuelL y w lp hp = some (lp', hp') →
      (∀ k, hasKey lp k = true → hasKey lp' k = true) ∧
      (∀ k, hasKey hp k = true → hasKey hp' k = true) ∧
      ((∀ k, hasKey lp k = true → hasKey hp k = true) →
        ∀ k, hasKey lp' k = true → hasKey hp' k = true) ∧
      (y ≤ target → hasKey lp' ⟨target + 1, false⟩ = true) := by
  intro fuelL
  induction fuelL with
  | zero =>
    intro y w lp hp lp' hp' h
    simp [extrapolateLoop] at h
  | succ fl ih =>
    intro y w lp hp lp' hp' h
    by_cases hyt : y ≤ target
    · simp only [extrapolateLoop, if_pos hyt, bind, Option.bind_eq_some] at h
      obtain ⟨lp1, hlp1, hp1, hhp1, hrec⟩ := h
      cases w
      · rw [loopNext_false] at hlp1 hhp1 hrec
        obtain ⟨elm, els, elc⟩ := ensureLecture_post fuelIso _ lp lp1 hlp1
        obtain ⟨ehm, ehs⟩ := ensureHip_post fuel b _ lp1 hp hp1 hhp1
        obtain ⟨m1, m2, cov, keyf⟩ := ih y true lp1 hp1 lp' hp' hrec
        refine ⟨fun k hk => m1 k (elm k hk), fun k hk => m2 k (ehm k hk), ?_, ?_⟩
        · intro hcov
          apply cov
          intro k hk
          rcases elc k hk with hk' | rfl
          · exact ehm k (hcov k hk')
          · exact ehs
        · intro _
          exact keyf hyt
      · rw [loopNext_true] at hlp1 hhp1 hrec
        obtain ⟨elm, els, elc⟩ := ensureLecture_post fuelIso _ lp lp1 hlp1
        obtain ⟨ehm, ehs⟩ := ensureHip_post fuel b _ lp1 hp hp1 hhp1
        obtain ⟨m1, m2, cov, keyf⟩ := ih (y + 1) false lp1 hp1 lp' hp' hrec
        refine ⟨fun k hk => m1 k (elm k hk), fun k hk => m2 k (ehm k hk), ?_, ?_⟩
        · intro hcov
          apply cov
          intro k hk
          rcases elc k hk with hk' | rfl
          · exact ehm k (hcov k hk')
          · exact ehs
        · intro _
          by_cases hyt2 : y + 1 ≤ target
          · exact keyf hyt2
          · obtain ⟨rfl, rfl⟩ := extrapolateLoop_exit fuel fuelIso b target fl
              (y + 1) false lp1 hp1 lp' hp' hrec hyt2
            have hy : y + 1 = target + 1 := by omega
            rw [← hy]
            exact els
    · obtain ⟨rfl, rfl⟩ := extrapolateLoop_exit fuel fuelIso b target (fl + 1)
        y w lp hp lp' hp' h hyt
      exact ⟨fun k hk => hk, fun k hk => hk, fun hc => hc, fun hy => absurd hy hyt⟩

end ExtrapolateLemmas

/-- C6: the Extrapolator is idempotent — whenever
`extrapolate_periods` completes on the two period maps, running it a
second time on its own output (same boundary, horizon and current year)
returns that output unchanged. -/
theorem extrapolate_idempotent (fuel fuelIso fuelLoop : Nat) (lp hp : PeriodMap)
    (boundary : Nat × Bool) (num_years nowYear : Nat) (lp' hp' : PeriodMap)
    (h : extrapolate_periods fuel fuelIso fuelLoop lp hp boundary num_years nowYear =
      some (lp', hp')) :
    extrapolate_periods fuel fuelIso fuelLoop lp' hp' boundary num_years nowYear =
      some (lp', hp') := by
  simp only [extrapolate_periods, bind, Option.bind_eq_some] at h
  obtain ⟨hp1, hfill, hloop⟩ := h
  obtain ⟨hfm, hfcov⟩ := fillHips_post fuel boundary lp hp hp1 hfill
  obtain ⟨m1, m2, cov, keyfact⟩ := extrapolateLoop_post fuel fuelIso boundary
    (nowYear + num_years) fuelLoop _ _ lp hp1 lp' hp' hloop
  have hcov' : ∀ k, hasKey lp' k = true → hasKey hp' k = true := by
    apply cov
    intro k hk
    rw [hasKey_iff_mem_map] at hk
    obtain ⟨e, he, rfl⟩ := List.mem_map.mp hk
    exact hfcov e he
  have hfuel1 : 1 ≤ fuelLoop := by
    rcases Nat.eq_zero_or_pos fuelLoop with rfl | h1
    · simp [extrapolateLoop] at hloop
    · exact h1
  have hentries : ∀ e ∈ lp', hasKey hp' e.1 = true := by
    intro e he
    apply hcov'
    rw [hasKey_iff_mem_map]
    exact List.mem_map.mpr ⟨e, he, rfl⟩
  have hstart2 : ¬ ((lastSemStart lp' nowYear).1 ≤ nowYear + num_years) := by
    by_cases hyt1 : (lastSemStart lp nowYear).1 ≤ nowYear + num_years
    · have hk := keyfact hyt1
      cases hlast2 : ((lp'.map (·.1)).insertionSort semLe).getLast? with
      | none =>
        exfalso
        rw [List.getLast?_eq_none_iff] at hlast2
        have hperm := List.perm_insertionSort semLe (lp'.map (·.1))
        rw [hlast2] at hperm
        have hmapnil : lp'.map (·.1) = [] := hperm.symm.eq_nil
        rw [hasKey_iff_mem_map, hmapnil] at hk
        exact List.not_mem_nil _ hk
      | some m =>
        have hmax := sorted_getLast_max (lp'.map (·.1)) m hlast2
          ⟨nowYear + num_years + 1, false⟩ ((hasKey_iff_mem_map _ _).mp hk)
        have hy : nowYear + num_years + 1 ≤ m.year := semLe_year _ _ hmax
        simp only [lastSemStart]
        rw [hlast2]
        show ¬ (m.year ≤ nowYear + num_years)
        omega
    · obtain ⟨rfl, rfl⟩ := extrapolateLoop_exit fuel fuelIso boundary
        (nowYear + num_years) fuelLoop _ _ lp hp1 lp' hp' hloop hyt1
      exact hyt1
  simp only [extrapolate_periods, bind]
  rw [fillHips_noop fuel boundary lp' hp' hentries]
  simp only [Option.some_bind]
  exact extrapolateLoop_noop fuel fuelIso boundary (nowYear + num_years) fuelLoop
    _ _ lp' hp' hstart2 hfuel1

/-- Input lecture map of the C6 witness: the scraped 2024 summer
semester. -/
def extrapWitnessLp : PeriodMap := [(⟨2024, false⟩, (738963, 739079))]

/-- Output lecture map of the C6 witness run. -/
def extrapWitnessLp' : PeriodMap :=
  [(⟨2024, false⟩, (738963, 739079)),
   (⟨2024, true⟩, (739152, 739289)),
   (⟨2025, false⟩, (739327, 739450))]

/-- Output HIP map of the C6 witness run. -/
def extrapWitnessHp' : PeriodMap :=
  [(⟨2024, false⟩, (739019, 739023)),
   (⟨2024, true⟩, (739215, 739219)),
   (⟨2025, false⟩, (739383, 739387))]

/-- Witness for C6: a concrete completed run, rerun on its own output. -/
theorem extrapolate_idempotent_witness :
    extrapolate_periods 40 30 10 extrapWitnessLp' extrapWitnessHp' (3000, true) 0 2024 =
      some (extrapWitnessLp', extrapWitnessHp') :=
  extrapolate_idempotent 40 30 10 extrapWitnessLp [] (3000, true) 0 2024
    extrapWitnessLp' extrapWitnessHp' (by rfl)

end ExamSched
